import Mathlib

/-!
# URL-shortener storage: the in-memory store

Shallow embedding of `internal/storage/inmemory.go`.

* Go maps are association lists with pairwise distinct keys (`AList`); the
  iteration order of a `range` loop is the order of the entries, so a statement
  over all maps covers every iteration order.
* A Go map value is a reference.  `ims.shorts[u]` is read again from the current
  state wherever the source goes through a local alias (`defaultShorts`,
  `userShorts`), which gives the aliasing of the two when `u` is `DefaultUser`.
* A nil map reads as empty; assigning to an entry of a nil map is a runtime
  panic, kept as an outcome of its own together with the state it leaves behind.
* The mutex is not modelled: every operation is one atomic step.  A goroutine
  started by an operation is reported in the outcome and runs as a later step.
-/

namespace Storage

/-! ## Types declared outside the two source files -/

/-- Modelled from the spec: the declaration of `ShortID` is missing; the spec
calls it an opaque string key. -/
abbrev ShortID := String

/-- Modelled from the spec: the declaration of `FullURL` is missing; the spec
calls it a string value. -/
abbrev FullURL := String

/-- Modelled from the spec: the declaration of `User` is missing; the spec calls
it an integer identity, and `AddUser` converts it with `int64(user)`. -/
abbrev User := Int

/-- Modelled from the spec: the key type of `BatchRequest` and `BatchResponse`
is missing; a correlation id is taken to be a string. -/
abbrev CorrID := String

/-- Modelled from the spec: the constant `DefaultUser` is missing; the spec
reserves the value `0` for it. -/
def DefaultUser : User := 0

/-- Modelled from the spec: the error values are declared elsewhere; the spec
lists these four kinds. -/
inductive StorageError where
  | ErrNotFound
  | ErrDeleted
  | ErrConflict
  | ErrUnauthenticated
  deriving DecidableEq, Repr

/-- Modelled from the spec: the request context, of which the store reads
nothing but the caller identity it may carry. -/
structure Context where
  user : Option User
  deriving DecidableEq, Repr

/-- Modelled from the spec: the identity-resolution collaborator `GetUser` is
missing; it returns the identity of the context or fails `Unauthenticated`. -/
def GetUser (ctx : Context) : Except StorageError User :=
  match ctx.user with
  | some user => .ok user
  | none => .error .ErrUnauthenticated

/-- The Go type `SavedURLs`, a `map[ShortID]FullURL`. -/
abbrev SavedURLs := AList (fun _ : ShortID => FullURL)

/-- The Go type `BatchRequest`, a map from correlation id to URL. -/
abbrev BatchRequest := AList (fun _ : CorrID => FullURL)

/-- The Go type `BatchResponse`, a map from correlation id to short id. -/
abbrev BatchResponse := AList (fun _ : CorrID => ShortID)

/-! ## The store -/

/-- The struct `InMemory` without its mutex.  `deleted` is `none` for a nil map. -/
structure InMemory where
  shorts : AList (fun _ : User => SavedURLs)
  deleted : Option (AList (fun _ : ShortID => Unit))
  users : Int

/-- `NewInMemory`: the composite literal sets `shorts` and `users` and leaves
`deleted` at its zero value, the nil map. -/
def NewInMemory : InMemory :=
  let ims : InMemory := { shorts := ∅, deleted := none, users := 0 }
  { ims with shorts := AList.insert DefaultUser (∅ : SavedURLs) ims.shorts }

/-- What a call leaves behind: it returned `val`, or it panicked.  Both carry
the store after the call and the identities for which it ran `go ims.AddUser`. -/
inductive Outcome (α : Type) where
  | returned (ims : InMemory) (val : α) (spawned : List User)
  | panicked (ims : InMemory) (spawned : List User)

/-- The store after the call. -/
def Outcome.ims {α : Type} : Outcome α → InMemory
  | .returned ims _ _ => ims
  | .panicked ims _ => ims

/-- The value the call returned, if it returned. -/
def Outcome.val? {α : Type} : Outcome α → Option α
  | .returned _ val _ => some val
  | .panicked _ _ => none

namespace InMemory

/-- The test `_, exist := ims.deleted[sid]`. -/
def tombstoned (ims : InMemory) (sid : ShortID) : Bool :=
  match ims.deleted with
  | none => false
  | some deleted => (deleted.lookup sid).isSome

/-- The read `ims.shorts[owner][sid]`; a missing inner map reads as empty. -/
def mapaccess (ims : InMemory) (owner : User) (sid : ShortID) : Option FullURL :=
  (ims.shorts.lookup owner).bind (fun m => m.lookup sid)

/-- The write `ims.shorts[owner][sid] = furl` through a map reference; `none`
is the panic of an assignment to an entry of a nil map. -/
def mapassign (ims : InMemory) (owner : User) (sid : ShortID) (furl : FullURL) :
    Option InMemory :=
  match ims.shorts.lookup owner with
  | none => none
  | some m => some { ims with shorts := AList.insert owner (AList.insert sid furl m) ims.shorts }

/-- The statement `delete(ims.shorts[owner], sid)`; a no-op on a nil map. -/
def mapdelete (ims : InMemory) (owner : User) (sid : ShortID) : InMemory :=
  match ims.shorts.lookup owner with
  | none => ims
  | some m => { ims with shorts := AList.insert owner (AList.erase sid m) ims.shorts }

/-- `InMemory.Get`. -/
def Get (ims : InMemory) (_ctx : Context) (sid : ShortID) : Except StorageError FullURL :=
  if ims.tombstoned sid then .error .ErrDeleted
  else
    match ims.mapaccess DefaultUser sid with
    | none => .error .ErrNotFound
    | some furl => .ok furl

/-- `InMemory.Save`. -/
def Save (ims : InMemory) (ctx : Context) (sid : ShortID) (furl : FullURL) :
    Outcome (Option StorageError) :=
  match GetUser ctx with
  | .error err => .returned ims (some err) []
  | .ok user =>
    if ims.tombstoned sid then .returned ims (some .ErrConflict) []
    else if (ims.mapaccess DefaultUser sid).isSome then .returned ims (some .ErrConflict) []
    else
      match ims.mapassign DefaultUser sid furl with
      | none => .panicked ims []
      | some ims1 =>
        let created := (ims1.shorts.lookup user).isNone
        let ims2 : InMemory :=
          if created then { ims1 with shorts := AList.insert user (∅ : SavedURLs) ims1.shorts }
          else ims1
        let spawned : List User := if created then [user] else []
        match ims2.mapassign user sid furl with
        | none => .panicked ims2 spawned
        | some ims3 => .returned ims3 none spawned

/-- `InMemory.Put`; `Short` is the external id-derivation function. -/
def Put (Short : FullURL → ShortID) (ims : InMemory) (ctx : Context) (furl : FullURL) :
    ShortID × Outcome (Option StorageError) :=
  let sid := Short furl
  (sid, ims.Save ctx sid furl)

/-- The `range batch` loop of `InMemory.PutBatch`.  `defaultNil` says that the
alias `defaultShorts`, taken before the caller's mapping is registered, is the
nil map: it then reads as empty and the first assignment to it panics. -/
def putBatchLoop (Short : FullURL → ShortID) (user : User) (spawned : List User)
    (defaultNil : Bool) :
    List (Sigma fun _ : CorrID => FullURL) → InMemory → BatchResponse →
      Outcome (Except StorageError BatchResponse)
  | [], ims, result => .returned ims (.ok result) spawned
  | ⟨corrid, furl⟩ :: rest, ims, result =>
    let sid := Short furl
    if ims.tombstoned sid then putBatchLoop Short user spawned defaultNil rest ims result
    else if !defaultNil && (ims.mapaccess DefaultUser sid).isSome then
      putBatchLoop Short user spawned defaultNil rest ims result
    else if defaultNil then .panicked ims spawned
    else
      match ims.mapassign DefaultUser sid furl with
      | none => .panicked ims spawned
      | some ims1 =>
        match ims1.mapassign user sid furl with
        | none => .panicked ims1 spawned
        | some ims2 =>
          putBatchLoop Short user spawned defaultNil rest ims2 (AList.insert corrid sid result)

/-- `InMemory.PutBatch`. -/
def PutBatch (Short : FullURL → ShortID) (ims : InMemory) (ctx : Context)
    (batch : BatchRequest) : Outcome (Except StorageError BatchResponse) :=
  match GetUser ctx with
  | .error err => .returned ims (.error err) []
  | .ok user =>
    let defaultNil := (ims.shorts.lookup DefaultUser).isNone
    let created := (ims.shorts.lookup user).isNone
    let ims1 : InMemory :=
      if created then { ims with shorts := AList.insert user (∅ : SavedURLs) ims.shorts }
      else ims
    let spawned : List User := if created then [user] else []
    putBatchLoop Short user spawned defaultNil batch.entries ims1 ∅

/-- `InMemory.GetURLs`. -/
def GetURLs (ims : InMemory) (ctx : Context) : Except StorageError SavedURLs :=
  match GetUser ctx with
  | .error err => .error err
  | .ok user =>
    if user = DefaultUser then .error .ErrNotFound
    else
      let source : List (Sigma fun _ : ShortID => FullURL) :=
        match ims.shorts.lookup user with
        | none => []
        | some m => m.entries
      let result : SavedURLs :=
        source.foldl (fun result e => AList.insert e.1 e.2 result) ∅
      if result.entries.length = 0 then .error .ErrNotFound else .ok result

/-- The `range sids` loop of `InMemory.AsyncDeleteURLs`. -/
def asyncDeleteLoop (user : User) :
    List ShortID → InMemory → List ShortID → Outcome (List ShortID)
  | [], ims, result => .returned ims result []
  | sid :: rest, ims, result =>
    if (ims.mapaccess user sid).isNone then asyncDeleteLoop user rest ims result
    else
      let ims1 := ims.mapdelete user sid
      let ims2 := ims1.mapdelete DefaultUser sid
      match ims2.deleted with
      | none => .panicked ims2 []
      | some deleted =>
        asyncDeleteLoop user rest { ims2 with deleted := some (AList.insert sid () deleted) }
          (result ++ [sid])

/-- `InMemory.AsyncDeleteURLs`. -/
def AsyncDeleteURLs (ims : InMemory) (ctx : Context) (sids : List ShortID) :
    Outcome (List ShortID) :=
  match GetUser ctx with
  | .error _ => .returned ims [] []
  | .ok user =>
    match ims.shorts.lookup user with
    | none => .returned ims [] []
    | some _ => asyncDeleteLoop user sids ims []

/-- Two's-complement wrap of an integer into the range of `int64`. -/
def wrapInt64 (x : Int) : Int := (x + 2 ^ 63) % 2 ^ 64 - 2 ^ 63

/-- `InMemory.NewUser`: `atomic.AddInt64(&ims.users, 1)`; the error is always nil. -/
def NewUser (ims : InMemory) (_ctx : Context) : InMemory × Except StorageError User :=
  let n := wrapInt64 (ims.users + 1)
  ({ ims with users := n }, .ok n)

/-- `atomic.CompareAndSwapInt64(&ims.users, old, new)`: the new value of the
word and whether the swap happened. -/
def CompareAndSwapInt64 (cur old new : Int) : Int × Bool :=
  if cur = old then (new, true) else (cur, false)

/-- The retry loop of `InMemory.AddUser`, run with no other goroutine in
between; `fuel` bounds the number of times the loop condition is evaluated and
`none` means the bound was reached. -/
def addUserLoop (n : Int) : Nat → InMemory → Int → Option InMemory
  | 0, _, _ => none
  | fuel + 1, ims, o =>
    if n > o ∨ (n < o ∧ n < 0) then
      match CompareAndSwapInt64 ims.users o n with
      | (v, true) => some { ims with users := v }
      | (v, false) => addUserLoop n fuel { ims with users := v } v
    else some ims

/-- `InMemory.AddUser`. -/
def AddUser (fuel : Nat) (ims : InMemory) (_ctx : Context) (user : User) : Option InMemory :=
  let o := ims.users
  let n : Int := user
  addUserLoop n fuel ims o

/-- `InMemory.Ping`. -/
def Ping (_ims : InMemory) (_ctx : Context) : Bool := true

end InMemory

/-! ## Runs of the store -/

/-- One state-changing call of the store, made with any arguments: the second
state is the store the call leaves behind, whether it returned or panicked.
An `AddUser` step also stands for a goroutine started by `Save` or `PutBatch`. -/
inductive Step (Short : FullURL → ShortID) (ims : InMemory) : InMemory → Prop where
  | save (ctx : Context) (sid : ShortID) (furl : FullURL) :
      Step Short ims (ims.Save ctx sid furl).ims
  | put (ctx : Context) (furl : FullURL) :
      Step Short ims (ims.Put Short ctx furl).2.ims
  | putBatch (ctx : Context) (batch : BatchRequest) :
      Step Short ims (ims.PutBatch Short ctx batch).ims
  | asyncDelete (ctx : Context) (sids : List ShortID) :
      Step Short ims (ims.AsyncDeleteURLs ctx sids).ims
  | newUser (ctx : Context) :
      Step Short ims (ims.NewUser ctx).1
  | addUser (fuel : Nat) (ctx : Context) (user : User) (ims' : InMemory) :
      ims.AddUser fuel ctx user = some ims' → Step Short ims ims'

/-- The store states a sequence of calls can reach from a new store. -/
def Reachable (Short : FullURL → ShortID) (ims : InMemory) : Prop :=
  Relation.ReflTransGen (Step Short) NewInMemory ims

/-- The invariant of the data model: every binding of a per-user mapping is
also a binding of the `DefaultUser` (global) mapping, with the same URL. -/
def GlobalCovers (ims : InMemory) : Prop :=
  ∀ (user : User) (sid : ShortID) (furl : FullURL),
    ims.mapaccess user sid = some furl → ims.mapaccess DefaultUser sid = some furl

/-- The context of a caller whose identity resolves to `user`. -/
def ctxOf (user : User) : Context := { user := some user }

/-! ## The persistent store (`internal/storage/infile.go`)

* The log file is its content, a list of bytes; opening, `Stat` and writing are
  taken to succeed, so of the error returns of `readUpdates` only the one of
  `Seek` on a negative offset is kept.
* `encoding/json` is a parameter: how a record is written and which members a
  line assigns.  What the store adds is kept: `readUpdates` decodes every line
  into the same variable `s`, and `json.Unmarshal` assigns only the members a
  line has.
* A goroutine `go ifs.writeUpdates(update)` is reported in the outcome as the
  update it was given and runs as a later call of `writeUpdates`.
-/

/-- A byte of the log file, written as the character with that code. -/
abbrev Byte := Char

/-- Modelled from the spec: the constant `DefaultFullURL` is missing and the
spec does not give its value; it is taken to be the zero value of a string. -/
def DefaultFullURL : FullURL := ""

/-- The struct `shortedURL`. -/
structure shortedURL where
  Sid : ShortID
  Furl : FullURL
  User : Storage.User
  Deleted : Bool
  deriving DecidableEq, Repr

/-- What `json.Unmarshal(line, &s)` finds in one line: for each field the value
it assigns, or `none` when the line has no usable member for it, and whether
the call returns an error. -/
structure Decoded where
  Sid : Option ShortID
  Furl : Option FullURL
  User : Option Storage.User
  Deleted : Option Bool
  err : Bool
  deriving DecidableEq, Repr

/-- The two functions of `encoding/json` the store calls on a `shortedURL`. -/
structure JSON where
  Marshal : shortedURL → List Byte
  Unmarshal : List Byte → Decoded

/-- The value of `s` after `json.Unmarshal(line, &s)` found `d`: a field the
line has no member for keeps the value it had. -/
def Decoded.assign (d : Decoded) (s : shortedURL) : shortedURL :=
  { Sid := d.Sid.getD s.Sid, Furl := d.Furl.getD s.Furl, User := d.User.getD s.User,
    Deleted := d.Deleted.getD s.Deleted }

/-- The struct `InFile`; `ims` is the in-memory store behind the interface. -/
structure InFile where
  ims : InMemory
  filename : String
  seek : Int

/-- What a call of the persistent store leaves behind: the store, the value
returned, the identities for which `go ims.AddUser` ran, and the updates given
to `go ifs.writeUpdates`; or the store at a panic of the in-memory call. -/
inductive FileOutcome (α : Type) where
  | returned (ifs : InFile) (val : α) (spawned : List User) (updates : List (List shortedURL))
  | panicked (ifs : InFile) (spawned : List User)

/-- What `readUpdates` leaves behind: it returned nil, it returned an error,
or a replayed call panicked. -/
inductive ReadOutcome where
  | returned (ifs : InFile) (spawned : List User)
  | failed (ifs : InFile)
  | panicked (ifs : InFile) (spawned : List User)

/-- The store after `readUpdates`. -/
def ReadOutcome.ifs : ReadOutcome → InFile
  | .returned ifs _ => ifs
  | .failed ifs => ifs
  | .panicked ifs _ => ifs

/-- `bufio.Reader.ReadBytes(delim)`: the bytes up to and including the first
`delim` and the bytes after it, or `none` when the input ends before a `delim`
(the call then returns `io.EOF`). -/
def ReadBytes (delim : Byte) : List Byte → Option (List Byte × List Byte)
  | [] => none
  | b :: rest =>
    if b = delim then some ([b], rest)
    else
      match ReadBytes delim rest with
      | none => none
      | some (line, rest') => some (b :: line, rest')

namespace InFile

/-- `InFile.writeUpdates`: one marshalled record and a newline per update,
appended to the file; the tracked offset advances by the bytes written. -/
def writeUpdates (json : JSON) (ifs : InFile) (file : List Byte) (s : List shortedURL) :
    InFile × List Byte :=
  let data : List Byte := s.foldl (fun data v => data ++ json.Marshal v ++ ['\n']) []
  let n : Int := data.length
  ({ ifs with seek := ifs.seek + n }, file ++ data)

/-- The identity in `user, _ := GetUser(ctx)`. -/
def userOf (ctx : Context) : User :=
  match GetUser ctx with
  | .ok user => user
  | .error _ => DefaultUser

/-- `InFile.Get`. -/
def Get (ifs : InFile) (ctx : Context) (sid : ShortID) : Except StorageError FullURL :=
  ifs.ims.Get ctx sid

/-- `InFile.GetURLs`. -/
def GetURLs (ifs : InFile) (ctx : Context) : Except StorageError SavedURLs :=
  ifs.ims.GetURLs ctx

/-- `InFile.Save`. -/
def Save (ifs : InFile) (ctx : Context) (sid : ShortID) (furl : FullURL) :
    FileOutcome (Option StorageError) :=
  match ifs.ims.Save ctx sid furl with
  | .panicked ims spawned => .panicked { ifs with ims := ims } spawned
  | .returned ims (some err) spawned => .returned { ifs with ims := ims } (some err) spawned []
  | .returned ims none spawned =>
    let user := userOf ctx
    let update : List shortedURL := []
    let update := update ++ [{ Sid := sid, Furl := furl, User := user, Deleted := false }]
    .returned { ifs with ims := ims } none spawned [update]

/-- `InFile.PutBatch`; `batch[corrid]` reads the zero value for a missing key. -/
def PutBatch (Short : FullURL → ShortID) (ifs : InFile) (ctx : Context)
    (batch : BatchRequest) : FileOutcome (Except StorageError BatchResponse) :=
  match ifs.ims.PutBatch Short ctx batch with
  | .panicked ims spawned => .panicked { ifs with ims := ims } spawned
  | .returned ims (.error err) spawned =>
    .returned { ifs with ims := ims } (.error err) spawned []
  | .returned ims (.ok response) spawned =>
    let user := userOf ctx
    let update : List shortedURL :=
      response.entries.foldl (fun update e =>
        update ++ [{ Sid := e.2, Furl := (batch.lookup e.1).getD "", User := user,
                     Deleted := false }]) []
    .returned { ifs with ims := ims } (.ok response) spawned [update]

/-- `InFile.AsyncDeleteURLs`, which calls `writeUpdates` itself: the result is
the outcome and the file after the call. -/
def AsyncDeleteURLs (json : JSON) (ifs : InFile) (file : List Byte) (ctx : Context)
    (sids : List ShortID) : FileOutcome (List ShortID) × List Byte :=
  match ifs.ims.AsyncDeleteURLs ctx sids with
  | .panicked ims spawned => (.panicked { ifs with ims := ims } spawned, file)
  | .returned ims result spawned =>
    match GetUser ctx with
    | .error _ => (.returned { ifs with ims := ims } result spawned [], file)
    | .ok user =>
      let update : List shortedURL :=
        result.foldl (fun update sid =>
          update ++ [{ Sid := sid, Furl := DefaultFullURL, User := user, Deleted := true }]) []
      let written := writeUpdates json { ifs with ims := ims } file update
      (.returned written.1 result spawned [], written.2)

/-- Lines 223 to 232 of `readUpdates`: the replay of the record in `s`, under a
context that carries the identity of the record. -/
def replay (ims : InMemory) (s : shortedURL) : Outcome Unit :=
  let ctx := ctxOf s.User
  if s.Deleted then
    match ims.AsyncDeleteURLs ctx [s.Sid] with
    | .returned ims' _ spawned => .returned ims' () spawned
    | .panicked ims' spawned => .panicked ims' spawned
  else
    match ims.Save ctx s.Sid s.Furl with
    | .returned ims' _ spawned => .returned ims' () spawned
    | .panicked ims' spawned => .panicked ims' spawned

/-- The `for` loop of `readUpdates` over the buffered reader; `fuel` bounds the
number of `ReadBytes` calls and `none` means the bound was reached. -/
def readLoop (json : JSON) :
    Nat → InMemory → shortedURL → List Byte → List User → Option (Outcome Unit)
  | 0, _, _, _, _ => none
  | fuel + 1, ims, s, buffered, spawned =>
    match ReadBytes '\n' buffered with
    | none => some (.returned ims () spawned)
    | some (line, rest) =>
      let d := json.Unmarshal line
      let s := d.assign s
      if d.err then readLoop json fuel ims s rest spawned
      else
        match replay ims s with
        | .returned ims' _ sp => readLoop json fuel ims' s rest (spawned ++ sp)
        | .panicked ims' sp => some (.panicked ims' (spawned ++ sp))

/-- `InFile.readUpdates` on a log file with the given content. -/
def readUpdates (json : JSON) (fuel : Nat) (ifs : InFile) (file : List Byte) :
    Option ReadOutcome :=
  let size : Int := file.length
  let ifs1 : InFile := if size < ifs.seek then { ifs with seek := 0 } else ifs
  if ifs1.seek < 0 then some (.failed ifs1)
  else
    let buffered := file.drop ifs1.seek.toNat
    let s : shortedURL := { Sid := "", Furl := "", User := 0, Deleted := false }
    match readLoop json fuel ifs1.ims s buffered [] with
    | none => none
    | some (.panicked ims spawned) => some (.panicked { ifs1 with ims := ims } spawned)
    | some (.returned ims _ spawned) =>
      some (.returned { ifs1 with ims := ims, seek := size } spawned)

end InFile

/-- `NewInFile` up to the start of the background watcher: a new in-memory
store, offset 0, and one `readUpdates`. -/
def NewInFile (json : JSON) (fuel : Nat) (filename : String) (file : List Byte) :
    Option ReadOutcome :=
  let ifs : InFile := { ims := NewInMemory, filename := filename, seek := 0 }
  ifs.readUpdates json fuel file

/-! ## Replay, stated over lines -/

/-- The newline-terminated lines of a byte sequence, each with its newline, in
order; the bytes after the last newline belong to no line. -/
def completeLines (bytes : List Byte) : List (List Byte) :=
  ((bytes.splitOn '\n').dropLast).map (fun line => line ++ ['\n'])

/-- The replay the spec describes, over a list of lines in order and written
with the calls of the in-memory store themselves.  A line that does not decode
is skipped.  A line that decodes gives a record, in which a field the line has
no member for is taken from the line before.  A tombstone record is replayed as
`AsyncDeleteURLs` of its id and any other record as `Save` of its id and URL,
each under the identity of the record.  A panic of the call ends the replay. -/
def replayLines (json : JSON) :
    List (List Byte) → InMemory → shortedURL → List User → Outcome Unit
  | [], ims, _, spawned => .returned ims () spawned
  | line :: rest, ims, previous, spawned =>
    let d := json.Unmarshal line
    let record : shortedURL :=
      { Sid := d.Sid.getD previous.Sid, Furl := d.Furl.getD previous.Furl,
        User := d.User.getD previous.User, Deleted := d.Deleted.getD previous.Deleted }
    if d.err then replayLines json rest ims record spawned
    else if record.Deleted then
      match InMemory.AsyncDeleteURLs ims (ctxOf record.User) [record.Sid] with
      | .returned ims' _ sp => replayLines json rest ims' record (spawned ++ sp)
      | .panicked ims' sp => .panicked ims' (spawned ++ sp)
    else
      match InMemory.Save ims (ctxOf record.User) record.Sid record.Furl with
      | .returned ims' _ sp => replayLines json rest ims' record (spawned ++ sp)
      | .panicked ims' sp => .panicked ims' (spawned ++ sp)

/-! ## The lines of the examples -/

/-- The text of the live record of id `a`, URL `x` and user 1. -/
def textLiveA : List Byte :=
  "\x7b\"id\":\"a\",\"url\":\"x\",\"user\":\"1\",\"deleted\":false\x7d".toList

/-- The text of the tombstone record of id `a` and user 1. -/
def textTombA : List Byte :=
  "\x7b\"id\":\"a\",\"url\":\"\",\"user\":\"1\",\"deleted\":true\x7d".toList

/-- The text of the live record of id `b`, URL `y` and user 1. -/
def textLiveB : List Byte :=
  "\x7b\"id\":\"b\",\"url\":\"y\",\"user\":\"1\",\"deleted\":false\x7d".toList

/-- The text of a record of id `b`, URL `y` and user 1 with no `deleted` member. -/
def textBareB : List Byte :=
  "\x7b\"id\":\"b\",\"url\":\"y\",\"user\":\"1\"\x7d".toList

/-- Modelled from the spec: the answers of `encoding/json` on the records and
lines of the examples, in the record format of the spec (`id`, `url`, the
identity as a string in `user`, `deleted`).  A listed text is read with or
without newlines around it; every other line is malformed and assigns nothing. -/
def exampleJSON : JSON where
  Marshal := fun v =>
    if v = { Sid := "a", Furl := "x", User := 1, Deleted := false } then textLiveA
    else if v = { Sid := "a", Furl := "", User := 1, Deleted := true } then textTombA
    else if v = { Sid := "b", Furl := "y", User := 1, Deleted := false } then textLiveB
    else "null".toList
  Unmarshal := fun line =>
    let text := line.filter (fun b => b ≠ '\n')
    if text = textLiveA then
      { Sid := some "a", Furl := some "x", User := some 1, Deleted := some false, err := false }
    else if text = textTombA then
      { Sid := some "a", Furl := some "", User := some 1, Deleted := some true, err := false }
    else if text = textLiveB then
      { Sid := some "b", Furl := some "y", User := some 1, Deleted := some false, err := false }
    else if text = textBareB then
      { Sid := some "b", Furl := some "y", User := some 1, Deleted := none, err := false }
    else { Sid := none, Furl := none, User := none, Deleted := none, err := true }

/-- A persistent store on a new in-memory store, before any log is read. -/
def newStore : InFile := { ims := NewInMemory, filename := "log", seek := 0 }

/-- The persistent store and the log after user 1 saved `a` on `newStore` and
the update of that `Save` was written. -/
def savedStore : InFile × List Byte :=
  match newStore.Save (ctxOf 1) "a" "x" with
  | .returned ifs _ _ updates =>
    updates.foldl (fun st update => InFile.writeUpdates exampleJSON st.1 st.2 update) (ifs, [])
  | .panicked ifs _ => (ifs, [])

/-! ## Replay, stated over records -/

/-- The records a replay of the lines gives to the store, in order: the values
of `s` after each line that decodes without an error. -/
def decodedRecords (json : JSON) : List (List Byte) → shortedURL → List shortedURL
  | [], _ => []
  | line :: rest, s =>
    let d := json.Unmarshal line
    let s := d.assign s
    if d.err then decodedRecords json rest s else s :: decodedRecords json rest s

/-- The replay of a list of records in order; a panic ends it. -/
def replayRecords : List shortedURL → InMemory → List User → Outcome Unit
  | [], ims, spawned => .returned ims () spawned
  | s :: rest, ims, spawned =>
    match InFile.replay ims s with
    | .returned ims' _ sp => replayRecords rest ims' (spawned ++ sp)
    | .panicked ims' sp => .panicked ims' (spawned ++ sp)

/-- No live record of an id comes after a tombstone record of the same id. -/
def TombstonesLast (records : List shortedURL) : Prop :=
  records.Pairwise (fun r1 r2 => r1.Deleted = true → r2.Deleted = false → r1.Sid ≠ r2.Sid)

/-- The store has taken a record in: the id of a live record is tombstoned or
in the global mapping, and the id of a tombstone record is not in the mapping
of the user of the record. -/
def Absorbed (ims : InMemory) (s : shortedURL) : Prop :=
  if s.Deleted then ims.mapaccess s.User s.Sid = none
  else ims.tombstoned s.Sid = true ∨ (ims.mapaccess DefaultUser s.Sid).isSome = true

/-! ## Reading and writing the nested maps -/

namespace InMemory

theorem mapassign_eq_some {ims ims' : InMemory} {owner : User} {sid : ShortID} {furl : FullURL}
    (h : ims.mapassign owner sid furl = some ims') :
    ∃ m, ims.shorts.lookup owner = some m ∧
      ims' = { ims with shorts := AList.insert owner (AList.insert sid furl m) ims.shorts } := by
  unfold mapassign at h
  cases hm : ims.shorts.lookup owner with
  | none => rw [hm] at h; cases h
  | some m => rw [hm] at h; exact ⟨m, rfl, (Option.some.inj h).symm⟩

theorem mapassign_isSome {ims : InMemory} {owner : User} (sid : ShortID) (furl : FullURL)
    (h : (ims.shorts.lookup owner).isSome = true) :
    ∃ ims', ims.mapassign owner sid furl = some ims' := by
  unfold mapassign
  cases hm : ims.shorts.lookup owner with
  | none => rw [hm] at h; cases h
  | some m => exact ⟨_, rfl⟩

theorem mapaccess_mapassign {ims ims' : InMemory} {owner : User} {sid : ShortID} {furl : FullURL}
    (h : ims.mapassign owner sid furl = some ims') (o : User) (k : ShortID) :
    ims'.mapaccess o k = if o = owner ∧ k = sid then some furl else ims.mapaccess o k := by
  obtain ⟨m, hm, rfl⟩ := mapassign_eq_some h
  unfold mapaccess
  by_cases ho : o = owner
  · subst ho
    by_cases hk : k = sid
    · subst hk; simp
    · simp [hk, hm, AList.lookup_insert_ne hk]
  · simp [ho, AList.lookup_insert_ne ho]

theorem lookup_isSome_mapassign {ims ims' : InMemory} {owner : User} {sid : ShortID} {furl : FullURL}
    (h : ims.mapassign owner sid furl = some ims') (o : User) :
    (ims'.shorts.lookup o).isSome = (ims.shorts.lookup o).isSome := by
  obtain ⟨m, hm, rfl⟩ := mapassign_eq_some h
  by_cases ho : o = owner
  · subst ho; simp [hm]
  · simp [AList.lookup_insert_ne ho]

theorem deleted_mapassign {ims ims' : InMemory} {owner : User} {sid : ShortID} {furl : FullURL}
    (h : ims.mapassign owner sid furl = some ims') : ims'.deleted = ims.deleted := by
  obtain ⟨m, _, rfl⟩ := mapassign_eq_some h; rfl

theorem users_mapassign {ims ims' : InMemory} {owner : User} {sid : ShortID} {furl : FullURL}
    (h : ims.mapassign owner sid furl = some ims') : ims'.users = ims.users := by
  obtain ⟨m, _, rfl⟩ := mapassign_eq_some h; rfl

theorem mapaccess_mapdelete (ims : InMemory) (owner : User) (sid : ShortID) (o : User) (k : ShortID) :
    (ims.mapdelete owner sid).mapaccess o k =
      if o = owner ∧ k = sid then none else ims.mapaccess o k := by
  unfold mapdelete
  cases hm : ims.shorts.lookup owner with
  | none =>
    by_cases ho : o = owner
    · subst ho; simp [mapaccess, hm]
    · simp [ho]
  | some m =>
    unfold mapaccess
    by_cases ho : o = owner
    · subst ho
      by_cases hk : k = sid
      · subst hk; simp
      · simp [hk, hm, AList.lookup_erase_ne hk]
    · simp [ho, AList.lookup_insert_ne ho]

theorem lookup_isSome_mapdelete (ims : InMemory) (owner : User) (sid : ShortID) (o : User) :
    ((ims.mapdelete owner sid).shorts.lookup o).isSome = (ims.shorts.lookup o).isSome := by
  unfold mapdelete
  cases hm : ims.shorts.lookup owner with
  | none => rfl
  | some m =>
    by_cases ho : o = owner
    · subst ho; simp [hm]
    · simp [AList.lookup_insert_ne ho]

theorem deleted_mapdelete (ims : InMemory) (owner : User) (sid : ShortID) :
    (ims.mapdelete owner sid).deleted = ims.deleted := by
  unfold mapdelete; cases ims.shorts.lookup owner <;> rfl

theorem users_mapdelete (ims : InMemory) (owner : User) (sid : ShortID) :
    (ims.mapdelete owner sid).users = ims.users := by
  unfold mapdelete; cases ims.shorts.lookup owner <;> rfl

/-- The store with an empty mapping registered for `user` when it has none:
the lazy creation `ims.shorts[user] = SavedURLs{}` of `Save` and `PutBatch`. -/
theorem mapaccess_create (ims : InMemory) (user : User) (o : User) (k : ShortID) :
    (if (ims.shorts.lookup user).isNone then
        ({ ims with shorts := AList.insert user (∅ : SavedURLs) ims.shorts } : InMemory)
      else ims).mapaccess o k = ims.mapaccess o k := by
  cases hm : ims.shorts.lookup user with
  | some m => simp
  | none =>
    simp only [Option.isNone_none, if_true]
    unfold mapaccess
    by_cases ho : o = user
    · subst ho; simp [hm]
    · simp [AList.lookup_insert_ne ho]


theorem lookup_isSome_create (ims : InMemory) (user : User) (o : User) :
    ((if (ims.shorts.lookup user).isNone then
        ({ ims with shorts := AList.insert user (∅ : SavedURLs) ims.shorts } : InMemory)
      else ims).shorts.lookup o).isSome = ((ims.shorts.lookup o).isSome || decide (o = user)) := by
  cases hm : ims.shorts.lookup user with
  | some m =>
    by_cases ho : o = user
    · subst ho; simp [hm]
    · simp [ho]
  | none =>
    simp only [Option.isNone_none, if_true]
    by_cases ho : o = user
    · subst ho; simp
    · simp [AList.lookup_insert_ne ho, ho]

theorem Save_fresh {ims : InMemory} {ctx : Context} {user : User} {sid : ShortID}
    (furl : FullURL) (hctx : GetUser ctx = .ok user) (hdef : (ims.shorts.lookup DefaultUser).isSome = true)
    (ht : ims.tombstoned sid = false) (hg : ims.mapaccess DefaultUser sid = none) :
    ∃ ims' spawned, ims.Save ctx sid furl = .returned ims' none spawned ∧
      ims'.deleted = ims.deleted ∧ ims'.users = ims.users ∧
      (∀ o k, ims'.mapaccess o k =
        if (o = DefaultUser ∨ o = user) ∧ k = sid then some furl else ims.mapaccess o k) ∧
      (∀ o, (ims'.shorts.lookup o).isSome = ((ims.shorts.lookup o).isSome || decide (o = user))) := by
  obtain ⟨ims1, h1⟩ := mapassign_isSome sid furl hdef
  have hu : ((if (ims1.shorts.lookup user).isNone then
        ({ ims1 with shorts := AList.insert user (∅ : SavedURLs) ims1.shorts } : InMemory)
      else ims1).shorts.lookup user).isSome = true := by
    rw [lookup_isSome_create]; simp
  obtain ⟨ims3, h3⟩ := mapassign_isSome sid furl hu
  refine ⟨ims3, if (ims1.shorts.lookup user).isNone then [user] else [], ?_, ?_, ?_, ?_, ?_⟩
  · simp only [Save, hctx, ht, hg, h1, h3]
    simp
  · rw [deleted_mapassign h3, ← deleted_mapassign h1]; split <;> rfl
  · rw [users_mapassign h3, ← users_mapassign h1]; split <;> rfl
  · intro o k
    rw [mapaccess_mapassign h3, mapaccess_create, mapaccess_mapassign h1]
    by_cases hk : k = sid
    · by_cases h2 : o = user
      · simp [hk, h2]
      · simp [hk, h2]
    · simp [hk]
  · intro o
    rw [lookup_isSome_mapassign h3, lookup_isSome_create, lookup_isSome_mapassign h1]


theorem Save_unauthenticated {ims : InMemory} {ctx : Context} {err : StorageError}
    (hctx : GetUser ctx = .error err) (sid : ShortID) (furl : FullURL) :
    ims.Save ctx sid furl = .returned ims (some err) [] := by
  simp only [Save, hctx]

theorem Save_conflict {ims : InMemory} {ctx : Context} {user : User} {sid : ShortID}
    (hctx : GetUser ctx = .ok user)
    (h : ims.tombstoned sid = true ∨ (ims.mapaccess DefaultUser sid).isSome = true)
    (furl : FullURL) :
    ims.Save ctx sid furl = .returned ims (some .ErrConflict) [] := by
  simp only [Save, hctx]
  cases ht : ims.tombstoned sid with
  | true => simp
  | false =>
    rcases h with h | h
    · rw [ht] at h; cases h
    · simp [h]

theorem mapassign_eq_none {ims : InMemory} {owner : User}
    (h : (ims.shorts.lookup owner).isSome = false) (sid : ShortID) (furl : FullURL) :
    ims.mapassign owner sid furl = none := by
  unfold mapassign
  cases hm : ims.shorts.lookup owner with
  | none => rfl
  | some m => rw [hm] at h; cases h

/-- Either `Save` leaves the store as it was, or it ran its success path. -/
theorem Save_ims_cases (ims : InMemory) (ctx : Context) (sid : ShortID) (furl : FullURL) :
    (ims.Save ctx sid furl).ims = ims ∨
      ∃ user, GetUser ctx = .ok user ∧ (ims.shorts.lookup DefaultUser).isSome = true ∧
        ims.tombstoned sid = false ∧ ims.mapaccess DefaultUser sid = none := by
  cases hctx : GetUser ctx with
  | error err => left; rw [Save_unauthenticated hctx]; rfl
  | ok user =>
    cases ht : ims.tombstoned sid with
    | true => left; rw [Save_conflict hctx (Or.inl ht)]; rfl
    | false =>
      cases hg : ims.mapaccess DefaultUser sid with
      | some x => left; rw [Save_conflict hctx (Or.inr (by simp [hg]))]; rfl
      | none =>
        cases hdef : (ims.shorts.lookup DefaultUser).isSome with
        | false =>
          left
          simp only [Save, hctx, ht, hg, mapassign_eq_none hdef]
          simp [Outcome.ims]
        | true => right; exact ⟨user, rfl, rfl, rfl, rfl⟩


theorem tombstoned_congr {ims ims' : InMemory} (h : ims'.deleted = ims.deleted) (sid : ShortID) :
    ims'.tombstoned sid = ims.tombstoned sid := by
  unfold tombstoned; rw [h]

theorem putBatchLoop_cons_skip (Short : FullURL → ShortID) (user : User) (spawned : List User)
    (defaultNil : Bool) (corrid : CorrID) (furl : FullURL)
    (rest : List (Sigma fun _ : CorrID => FullURL)) (ims : InMemory) (result : BatchResponse)
    (h : ims.tombstoned (Short furl) = true ∨
      (defaultNil = false ∧ (ims.mapaccess DefaultUser (Short furl)).isSome = true)) :
    putBatchLoop Short user spawned defaultNil (⟨corrid, furl⟩ :: rest) ims result =
      putBatchLoop Short user spawned defaultNil rest ims result := by
  rw [putBatchLoop]
  rcases h with h | ⟨h1, h2⟩
  · simp [h]
  · simp [h1, h2]

theorem putBatchLoop_cons_nil_alias (Short : FullURL → ShortID) (user : User)
    (spawned : List User) (corrid : CorrID) (furl : FullURL)
    (rest : List (Sigma fun _ : CorrID => FullURL)) (ims : InMemory) (result : BatchResponse)
    (ht : ims.tombstoned (Short furl) = false) :
    putBatchLoop Short user spawned true (⟨corrid, furl⟩ :: rest) ims result =
      .panicked ims spawned := by
  rw [putBatchLoop]
  simp [ht]

theorem putBatchLoop_cons_nil_global (Short : FullURL → ShortID) (user : User)
    (spawned : List User) (corrid : CorrID) (furl : FullURL)
    (rest : List (Sigma fun _ : CorrID => FullURL)) (ims : InMemory) (result : BatchResponse)
    (ht : ims.tombstoned (Short furl) = false) (hg : ims.mapaccess DefaultUser (Short furl) = none)
    (h1 : ims.mapassign DefaultUser (Short furl) furl = none) :
    putBatchLoop Short user spawned false (⟨corrid, furl⟩ :: rest) ims result =
      .panicked ims spawned := by
  rw [putBatchLoop]
  simp [ht, hg, h1]

theorem putBatchLoop_cons_nil_user (Short : FullURL → ShortID) (user : User)
    (spawned : List User) (corrid : CorrID) (furl : FullURL)
    (rest : List (Sigma fun _ : CorrID => FullURL)) (ims ims1 : InMemory) (result : BatchResponse)
    (ht : ims.tombstoned (Short furl) = false) (hg : ims.mapaccess DefaultUser (Short furl) = none)
    (h1 : ims.mapassign DefaultUser (Short furl) furl = some ims1)
    (h2 : ims1.mapassign user (Short furl) furl = none) :
    putBatchLoop Short user spawned false (⟨corrid, furl⟩ :: rest) ims result =
      .panicked ims1 spawned := by
  rw [putBatchLoop]
  simp [ht, hg, h1, h2]

theorem putBatchLoop_cons_insert (Short : FullURL → ShortID) (user : User)
    (spawned : List User) (corrid : CorrID) (furl : FullURL)
    (rest : List (Sigma fun _ : CorrID => FullURL)) (ims ims1 ims2 : InMemory)
    (result : BatchResponse)
    (ht : ims.tombstoned (Short furl) = false) (hg : ims.mapaccess DefaultUser (Short furl) = none)
    (h1 : ims.mapassign DefaultUser (Short furl) furl = some ims1)
    (h2 : ims1.mapassign user (Short furl) furl = some ims2) :
    putBatchLoop Short user spawned false (⟨corrid, furl⟩ :: rest) ims result =
      putBatchLoop Short user spawned false rest ims2 (AList.insert corrid (Short furl) result) := by
  rw [putBatchLoop]
  simp [ht, hg, h1, h2]

/-- With a nil alias for the global mapping the loop of `PutBatch` changes
nothing: it skips tombstoned ids and panics at the first other entry. -/
theorem putBatchLoop_nil_alias_ims (Short : FullURL → ShortID) (user : User)
    (spawned : List User) :
    ∀ (entries : List (Sigma fun _ : CorrID => FullURL)) (ims : InMemory) (result : BatchResponse),
      (putBatchLoop Short user spawned true entries ims result).ims = ims
  | [], _, _ => rfl
  | ⟨corrid, furl⟩ :: rest, ims, result => by
    cases ht : ims.tombstoned (Short furl) with
    | true =>
      rw [putBatchLoop_cons_skip _ _ _ _ _ _ _ _ _ (Or.inl ht)]
      exact putBatchLoop_nil_alias_ims Short user spawned rest ims result
    | false =>
      rw [putBatchLoop_cons_nil_alias _ _ _ _ _ _ _ _ ht]
      rfl

/-- The loop of `PutBatch` touches neither the tombstones nor the counter,
registers no mapping, and changes a mapping only at an id that was neither
tombstoned nor in the global mapping. -/
theorem putBatchLoop_footprint (Short : FullURL → ShortID) (user : User) (spawned : List User)
    (defaultNil : Bool) :
    ∀ (entries : List (Sigma fun _ : CorrID => FullURL)) (ims : InMemory) (result : BatchResponse),
      (putBatchLoop Short user spawned defaultNil entries ims result).ims.deleted = ims.deleted ∧
      (putBatchLoop Short user spawned defaultNil entries ims result).ims.users = ims.users ∧
      (∀ o, ((putBatchLoop Short user spawned defaultNil entries ims result).ims.shorts.lookup
          o).isSome = (ims.shorts.lookup o).isSome) ∧
      (∀ o k, (putBatchLoop Short user spawned defaultNil entries ims result).ims.mapaccess o k ≠
          ims.mapaccess o k →
        ims.tombstoned k = false ∧ ims.mapaccess DefaultUser k = none) := by
  cases defaultNil with
  | true =>
    intro entries ims result
    rw [putBatchLoop_nil_alias_ims]
    exact ⟨rfl, rfl, fun _ => rfl, fun o k h => absurd rfl h⟩
  | false =>
    intro entries
    induction entries with
    | nil =>
      intro ims result
      exact ⟨rfl, rfl, fun _ => rfl, fun o k h => absurd rfl h⟩
    | cons e rest ih =>
      intro ims result
      obtain ⟨corrid, furl⟩ := e
      cases ht : ims.tombstoned (Short furl) with
      | true =>
        rw [putBatchLoop_cons_skip _ _ _ _ _ _ _ _ _ (Or.inl ht)]
        exact ih ims result
      | false =>
        cases hg : ims.mapaccess DefaultUser (Short furl) with
        | some x =>
          rw [putBatchLoop_cons_skip _ _ _ _ _ _ _ _ _ (Or.inr ⟨rfl, by rw [hg]; rfl⟩)]
          exact ih ims result
        | none =>
          cases h1 : ims.mapassign DefaultUser (Short furl) furl with
          | none =>
            rw [putBatchLoop_cons_nil_global _ _ _ _ _ _ _ _ ht hg h1]
            exact ⟨rfl, rfl, fun _ => rfl, fun o k h => absurd rfl h⟩
          | some ims1 =>
            have a1 := mapaccess_mapassign h1
            cases h2 : ims1.mapassign user (Short furl) furl with
            | none =>
              rw [putBatchLoop_cons_nil_user _ _ _ _ _ _ _ _ _ ht hg h1 h2]
              refine ⟨deleted_mapassign h1, users_mapassign h1, lookup_isSome_mapassign h1, ?_⟩
              intro o k hne
              change ims1.mapaccess o k ≠ _ at hne
              rw [a1] at hne
              by_cases hk : k = Short furl
              · subst hk; exact ⟨ht, hg⟩
              · simp [hk] at hne
            | some ims2 =>
              rw [putBatchLoop_cons_insert _ _ _ _ _ _ _ _ _ _ ht hg h1 h2]
              have a2 := mapaccess_mapassign h2
              obtain ⟨hd, hu, hl, hm⟩ := ih ims2 (AList.insert corrid (Short furl) result)
              refine ⟨?_, ?_, ?_, ?_⟩
              · rw [hd, deleted_mapassign h2, deleted_mapassign h1]
              · rw [hu, users_mapassign h2, users_mapassign h1]
              · intro o
                rw [hl, lookup_isSome_mapassign h2, lookup_isSome_mapassign h1]
              · intro o k hne
                by_cases hk : k = Short furl
                · subst hk; exact ⟨ht, hg⟩
                · have e2 : ims2.mapaccess o k = ims.mapaccess o k := by
                    rw [a2, a1]; simp [hk]
                  have e3 : ims2.mapaccess DefaultUser k = ims.mapaccess DefaultUser k := by
                    rw [a2, a1]; simp [hk]
                  have := hm o k (by rw [e2]; exact hne)
                  rw [@tombstoned_congr ims ims2
                    (by rw [deleted_mapassign h2, deleted_mapassign h1]), e3] at this
                  exact this

theorem asyncDeleteLoop_cons_skip (user : User) (sid : ShortID) (rest : List ShortID)
    (ims : InMemory) (result : List ShortID) (h : ims.mapaccess user sid = none) :
    asyncDeleteLoop user (sid :: rest) ims result = asyncDeleteLoop user rest ims result := by
  rw [asyncDeleteLoop]; simp [h]

theorem asyncDeleteLoop_cons_nil (user : User) (sid : ShortID) (rest : List ShortID)
    (ims : InMemory) (result : List ShortID) {furl : FullURL}
    (h : ims.mapaccess user sid = some furl) (hd : ims.deleted = none) :
    asyncDeleteLoop user (sid :: rest) ims result =
      .panicked ((ims.mapdelete user sid).mapdelete DefaultUser sid) [] := by
  rw [asyncDeleteLoop]
  simp [h, deleted_mapdelete, hd]

theorem asyncDeleteLoop_cons_delete (user : User) (sid : ShortID) (rest : List ShortID)
    (ims : InMemory) (result : List ShortID) {furl : FullURL}
    {deleted : AList (fun _ : ShortID => Unit)}
    (h : ims.mapaccess user sid = some furl) (hd : ims.deleted = some deleted) :
    asyncDeleteLoop user (sid :: rest) ims result =
      asyncDeleteLoop user rest
        { (ims.mapdelete user sid).mapdelete DefaultUser sid with
          deleted := some (AList.insert sid () deleted) } (result ++ [sid]) := by
  rw [asyncDeleteLoop]
  have hd2 : ((ims.mapdelete user sid).mapdelete DefaultUser sid).deleted = some deleted := by
    rw [deleted_mapdelete, deleted_mapdelete, hd]
  simp only [h, Option.isNone_some, Bool.false_eq_true, if_false]
  rw [hd2]

theorem mapaccess_twice_deleted (ims : InMemory) (user : User) (sid : ShortID) (o : User)
    (k : ShortID) :
    ((ims.mapdelete user sid).mapdelete DefaultUser sid).mapaccess o k =
      if (o = user ∨ o = DefaultUser) ∧ k = sid then none else ims.mapaccess o k := by
  rw [mapaccess_mapdelete, mapaccess_mapdelete]
  by_cases hk : k = sid
  · by_cases h1 : o = DefaultUser
    · simp [hk, h1]
    · by_cases h2 : o = user
      · simp [hk, h2]
      · simp [hk, h1, h2]
  · simp [hk]

/-- The loop of `AsyncDeleteURLs` leaves the counter alone, registers and drops
no mapping, keeps every tombstone, and adds no binding to any mapping. -/
theorem asyncDeleteLoop_footprint (user : User) :
    ∀ (sids : List ShortID) (ims : InMemory) (result : List ShortID),
      (asyncDeleteLoop user sids ims result).ims.users = ims.users ∧
      (∀ o, ((asyncDeleteLoop user sids ims result).ims.shorts.lookup o).isSome =
        (ims.shorts.lookup o).isSome) ∧
      (∀ k, ims.tombstoned k = true →
        (asyncDeleteLoop user sids ims result).ims.tombstoned k = true) ∧
      (∀ o k furl, (asyncDeleteLoop user sids ims result).ims.mapaccess o k = some furl →
        ims.mapaccess o k = some furl)
  | [], ims, result => ⟨rfl, fun _ => rfl, fun _ h => h, fun _ _ _ h => h⟩
  | sid :: rest, ims, result => by
    cases h : ims.mapaccess user sid with
    | none =>
      rw [asyncDeleteLoop_cons_skip _ _ _ _ _ h]
      exact asyncDeleteLoop_footprint user rest ims result
    | some furl =>
      have hacc : ∀ o k x, ((ims.mapdelete user sid).mapdelete DefaultUser sid).mapaccess o k =
          some x → ims.mapaccess o k = some x := by
        intro o k x hx
        rw [mapaccess_twice_deleted] at hx
        split at hx
        · cases hx
        · exact hx
      have hmap : ∀ o, (((ims.mapdelete user sid).mapdelete DefaultUser sid).shorts.lookup o).isSome
          = (ims.shorts.lookup o).isSome := by
        intro o; rw [lookup_isSome_mapdelete, lookup_isSome_mapdelete]
      cases hd : ims.deleted with
      | none =>
        rw [asyncDeleteLoop_cons_nil _ _ _ _ _ h hd]
        refine ⟨?_, hmap, ?_, hacc⟩
        · show ((ims.mapdelete user sid).mapdelete DefaultUser sid).users = _
          rw [users_mapdelete, users_mapdelete]
        · intro k hk
          simp [tombstoned, hd] at hk
      | some deleted =>
        rw [asyncDeleteLoop_cons_delete _ _ _ _ _ h hd]
        obtain ⟨hu, hl, ht, hm⟩ := asyncDeleteLoop_footprint user rest
          { (ims.mapdelete user sid).mapdelete DefaultUser sid with
            deleted := some (AList.insert sid () deleted) } (result ++ [sid])
        refine ⟨?_, ?_, ?_, ?_⟩
        · rw [hu]
          show ((ims.mapdelete user sid).mapdelete DefaultUser sid).users = _
          rw [users_mapdelete, users_mapdelete]
        · intro o; rw [hl]; exact hmap o
        · intro k hk
          apply ht
          simp only [tombstoned, hd] at hk
          simp only [tombstoned]
          by_cases hks : k = sid
          · subst hks; simp
          · rw [AList.lookup_insert_ne hks]; exact hk
        · intro o k x hx
          exact hacc o k x (hm o k x hx)


/-- What `Save` can change: no tombstone, no mapping at another id, and nothing
at all at a tombstoned id. -/
theorem Save_footprint (ims : InMemory) (ctx : Context) (sid : ShortID) (furl : FullURL) :
    (ims.Save ctx sid furl).ims.deleted = ims.deleted ∧
    (ims.Save ctx sid furl).ims.users = ims.users ∧
    (∀ o, (ims.shorts.lookup o).isSome = true →
      ((ims.Save ctx sid furl).ims.shorts.lookup o).isSome = true) ∧
    (∀ o k, (ims.Save ctx sid furl).ims.mapaccess o k ≠ ims.mapaccess o k →
      k = sid ∧ ims.tombstoned k = false ∧ ims.mapaccess DefaultUser k = none) := by
  rcases Save_ims_cases ims ctx sid furl with h | ⟨user, hctx, hdef, ht, hg⟩
  · rw [h]; exact ⟨rfl, rfl, fun _ h => h, fun _ _ h => absurd rfl h⟩
  · obtain ⟨ims', spawned, hs, hd, hu, hm, hl⟩ := Save_fresh furl hctx hdef ht hg
    rw [hs]
    refine ⟨hd, hu, ?_, ?_⟩
    · intro o ho
      show (ims'.shorts.lookup o).isSome = true
      rw [hl, ho]; rfl
    · intro o k hne
      change ims'.mapaccess o k ≠ _ at hne
      rw [hm] at hne
      by_cases hk : k = sid
      · subst hk; exact ⟨rfl, ht, hg⟩
      · simp [hk] at hne

theorem PutBatch_footprint (Short : FullURL → ShortID) (ims : InMemory) (ctx : Context)
    (batch : BatchRequest) :
    (ims.PutBatch Short ctx batch).ims.deleted = ims.deleted ∧
    (ims.PutBatch Short ctx batch).ims.users = ims.users ∧
    (∀ o, (ims.shorts.lookup o).isSome = true →
      ((ims.PutBatch Short ctx batch).ims.shorts.lookup o).isSome = true) ∧
    (∀ o k, (ims.PutBatch Short ctx batch).ims.mapaccess o k ≠ ims.mapaccess o k →
      ims.tombstoned k = false ∧ ims.mapaccess DefaultUser k = none) := by
  unfold PutBatch
  cases hctx : GetUser ctx with
  | error err => exact ⟨rfl, rfl, fun _ h => h, fun _ _ h => absurd rfl h⟩
  | ok user =>
    dsimp only
    obtain ⟨hd, hu, hl, hm⟩ := putBatchLoop_footprint Short user
      (if (ims.shorts.lookup user).isNone then [user] else [])
      (ims.shorts.lookup DefaultUser).isNone batch.entries
      (if (ims.shorts.lookup user).isNone then
        ({ ims with shorts := AList.insert user (∅ : SavedURLs) ims.shorts } : InMemory)
      else ims) ∅
    have hd1 : (if (ims.shorts.lookup user).isNone then
        ({ ims with shorts := AList.insert user (∅ : SavedURLs) ims.shorts } : InMemory)
      else ims).deleted = ims.deleted := by split <;> rfl
    have hu1 : (if (ims.shorts.lookup user).isNone then
        ({ ims with shorts := AList.insert user (∅ : SavedURLs) ims.shorts } : InMemory)
      else ims).users = ims.users := by split <;> rfl
    refine ⟨hd.trans hd1, hu.trans hu1, ?_, ?_⟩
    · intro o ho
      rw [hl, lookup_isSome_create, ho]; rfl
    · intro o k hne
      rw [← mapaccess_create ims user o k] at hne
      have := hm o k hne
      rw [tombstoned_congr hd1, mapaccess_create] at this
      exact this

theorem AsyncDeleteURLs_unauthenticated {ims : InMemory} {ctx : Context} {err : StorageError}
    (hctx : GetUser ctx = .error err) (sids : List ShortID) :
    ims.AsyncDeleteURLs ctx sids = .returned ims [] [] := by
  simp only [AsyncDeleteURLs, hctx]

theorem AsyncDeleteURLs_no_mapping {ims : InMemory} {ctx : Context} {user : User}
    (hctx : GetUser ctx = .ok user) (hm : ims.shorts.lookup user = none) (sids : List ShortID) :
    ims.AsyncDeleteURLs ctx sids = .returned ims [] [] := by
  simp only [AsyncDeleteURLs, hctx, hm]

theorem AsyncDeleteURLs_loop {ims : InMemory} {ctx : Context} {user : User} {m : SavedURLs}
    (hctx : GetUser ctx = .ok user) (hm : ims.shorts.lookup user = some m) (sids : List ShortID) :
    ims.AsyncDeleteURLs ctx sids = asyncDeleteLoop user sids ims [] := by
  simp only [AsyncDeleteURLs, hctx, hm]

theorem AsyncDeleteURLs_footprint (ims : InMemory) (ctx : Context) (sids : List ShortID) :
    (ims.AsyncDeleteURLs ctx sids).ims.users = ims.users ∧
    (∀ o, ((ims.AsyncDeleteURLs ctx sids).ims.shorts.lookup o).isSome =
      (ims.shorts.lookup o).isSome) ∧
    (∀ k, ims.tombstoned k = true → (ims.AsyncDeleteURLs ctx sids).ims.tombstoned k = true) ∧
    (∀ o k furl, (ims.AsyncDeleteURLs ctx sids).ims.mapaccess o k = some furl →
      ims.mapaccess o k = some furl) := by
  cases hctx : GetUser ctx with
  | error err =>
    rw [AsyncDeleteURLs_unauthenticated hctx]
    exact ⟨rfl, fun _ => rfl, fun _ h => h, fun _ _ _ h => h⟩
  | ok user =>
    cases hm : ims.shorts.lookup user with
    | none =>
      rw [AsyncDeleteURLs_no_mapping hctx hm]
      exact ⟨rfl, fun _ => rfl, fun _ h => h, fun _ _ _ h => h⟩
    | some m =>
      rw [AsyncDeleteURLs_loop hctx hm]
      exact asyncDeleteLoop_footprint user sids ims []

theorem addUserLoop_footprint (n : Int) :
    ∀ (fuel : Nat) (ims : InMemory) (o : Int) (ims' : InMemory),
      addUserLoop n fuel ims o = some ims' →
        ims'.shorts = ims.shorts ∧ ims'.deleted = ims.deleted
  | 0, ims, o, ims', h => by simp [addUserLoop] at h
  | fuel + 1, ims, o, ims', h => by
    rw [addUserLoop] at h
    split at h
    · split at h
      · cases h; exact ⟨rfl, rfl⟩
      · have ih := addUserLoop_footprint n fuel _ _ _ h
        exact ih
    · cases h; exact ⟨rfl, rfl⟩

end InMemory

open InMemory

/-- One call keeps every registered mapping and every tombstone, and adds no
binding at a tombstoned id. -/
theorem Step.footprint {Short : FullURL → ShortID} {ims ims' : InMemory}
    (h : Step Short ims ims') :
    (∀ o, (ims.shorts.lookup o).isSome = true → (ims'.shorts.lookup o).isSome = true) ∧
    (∀ k, ims.tombstoned k = true → ims'.tombstoned k = true) ∧
    (∀ o k furl, ims.tombstoned k = true → ims'.mapaccess o k = some furl →
      ims.mapaccess o k = some furl) := by
  cases h with
  | save ctx sid furl =>
    obtain ⟨hd, _, hl, hm⟩ := Save_footprint ims ctx sid furl
    refine ⟨hl, fun k hk => by rw [tombstoned_congr hd]; exact hk, ?_⟩
    intro o k x hk hx
    by_cases hne : (ims.Save ctx sid furl).ims.mapaccess o k = ims.mapaccess o k
    · rw [← hne]; exact hx
    · have := (hm o k hne).2.1
      rw [hk] at this; cases this
  | put ctx furl =>
    obtain ⟨hd, _, hl, hm⟩ := Save_footprint ims ctx (Short furl) furl
    refine ⟨hl, fun k hk => ?_, ?_⟩
    · show (ims.Save ctx (Short furl) furl).ims.tombstoned k = true
      rw [tombstoned_congr hd]; exact hk
    · intro o k x hk hx
      change (ims.Save ctx (Short furl) furl).ims.mapaccess o k = some x at hx
      by_cases hne : (ims.Save ctx (Short furl) furl).ims.mapaccess o k = ims.mapaccess o k
      · rw [← hne]; exact hx
      · have := (hm o k hne).2.1
        rw [hk] at this; cases this
  | putBatch ctx batch =>
    obtain ⟨hd, _, hl, hm⟩ := PutBatch_footprint Short ims ctx batch
    refine ⟨hl, fun k hk => by rw [tombstoned_congr hd]; exact hk, ?_⟩
    intro o k x hk hx
    by_cases hne : (ims.PutBatch Short ctx batch).ims.mapaccess o k = ims.mapaccess o k
    · rw [← hne]; exact hx
    · have := (hm o k hne).1
      rw [hk] at this; cases this
  | asyncDelete ctx sids =>
    obtain ⟨_, hl, ht, hm⟩ := AsyncDeleteURLs_footprint ims ctx sids
    exact ⟨fun o ho => by rw [hl]; exact ho, ht, fun o k x _ hx => hm o k x hx⟩
  | newUser ctx =>
    exact ⟨fun _ h => h, fun _ h => h, fun _ _ _ _ h => h⟩
  | addUser fuel ctx user _ hadd =>
    obtain ⟨hs, hd⟩ := addUserLoop_footprint _ _ _ _ _ hadd
    refine ⟨fun o ho => by rw [hs]; exact ho, fun k hk => by rw [tombstoned_congr hd]; exact hk, ?_⟩
    intro o k x _ hx
    unfold mapaccess at hx ⊢
    rw [← hs]; exact hx

/-- Every reachable store has its global mapping, the one `NewInMemory` makes. -/
theorem Reachable.global_mapping {Short : FullURL → ShortID} {ims : InMemory}
    (h : Reachable Short ims) : (ims.shorts.lookup DefaultUser).isSome = true := by
  induction h with
  | refl => rfl
  | tail _ hstep ih => exact hstep.footprint.1 _ ih


/-! ## Save and Get -/

/-- C1: on every store reachable from `NewInMemory`, a caller whose identity
resolves and who saves an id that is neither in the global mapping nor
tombstoned gets no error from `Save`, and `Get` of that id on the store `Save`
leaves behind returns the saved URL with no error. -/
theorem save_then_get (Short : FullURL → ShortID) (ims : InMemory)
    (hreach : Reachable Short ims) (ctx : Context) (user : User)
    (hctx : GetUser ctx = .ok user) (sid : ShortID) (furl : FullURL)
    (hglobal : ims.mapaccess DefaultUser sid = none) (htomb : ims.tombstoned sid = false)
    (ctx' : Context) :
    ∃ ims' spawned, ims.Save ctx sid furl = .returned ims' none spawned ∧
      ims'.Get ctx' sid = .ok furl := by
  obtain ⟨ims', spawned, hs, hd, _, hm, _⟩ :=
    Save_fresh furl hctx hreach.global_mapping htomb hglobal
  refine ⟨ims', spawned, hs, ?_⟩
  have h1 : ims'.tombstoned sid = false := by rw [tombstoned_congr hd]; exact htomb
  have h2 : ims'.mapaccess DefaultUser sid = some furl := by rw [hm]; simp
  simp [Get, h1, h2]

/-- The witness of C1: user 1 saves `b` on the store reached by one `Save`. -/
theorem save_then_get_witness :
    Reachable (fun furl => furl) (NewInMemory.Save (ctxOf 1) "a" "x").ims ∧
    GetUser (ctxOf 2) = .ok 2 ∧
    (NewInMemory.Save (ctxOf 1) "a" "x").ims.mapaccess DefaultUser "b" = none ∧
    (NewInMemory.Save (ctxOf 1) "a" "x").ims.tombstoned "b" = false ∧
    ∃ ims' spawned,
      (NewInMemory.Save (ctxOf 1) "a" "x").ims.Save (ctxOf 2) "b" "y" =
        .returned ims' none spawned ∧
      ims'.Get (ctxOf 2) "b" = .ok "y" :=
  ⟨Relation.ReflTransGen.single (Step.save (ctxOf 1) "a" "x"), rfl, by decide, by decide,
    save_then_get (fun furl => furl) _
      (Relation.ReflTransGen.single (Step.save (ctxOf 1) "a" "x")) (ctxOf 2) 2 rfl "b" "y"
      (by decide) (by decide) (ctxOf 2)⟩

/-- C2: when the id is already in the global mapping, `Save` by a caller of any
identity returns `Conflict` and the store it leaves behind is the store it was
given, so the mappings, the tombstones and the counter are unchanged; `Get` of
the id answers as before, with the original URL when the id is not tombstoned. -/
theorem save_existing_conflict (ims : InMemory) (ctx : Context) (user : User)
    (hctx : GetUser ctx = .ok user) (sid : ShortID) (original : FullURL)
    (hpresent : ims.mapaccess DefaultUser sid = some original) (anyURL : FullURL)
    (ctx' : Context) :
    ims.Save ctx sid anyURL = .returned ims (some .ErrConflict) [] ∧
    (ims.Save ctx sid anyURL).ims.Get ctx' sid = ims.Get ctx' sid ∧
    (ims.tombstoned sid = false → (ims.Save ctx sid anyURL).ims.Get ctx' sid = .ok original) := by
  have hs : (ims.mapaccess DefaultUser sid).isSome = true := by rw [hpresent]; rfl
  have h := Save_conflict hctx (Or.inr hs) anyURL
  refine ⟨h, by rw [h]; rfl, fun ht => ?_⟩
  rw [h]
  simp [Outcome.ims, Get, ht, hpresent]

/-- The witness of C2: user 2 saves over the id `a` of user 1. -/
theorem save_existing_conflict_witness :
    GetUser (ctxOf 2) = .ok 2 ∧
    (NewInMemory.Save (ctxOf 1) "a" "x").ims.mapaccess DefaultUser "a" = some "x" ∧
    (NewInMemory.Save (ctxOf 1) "a" "x").ims.Save (ctxOf 2) "a" "y" =
      .returned (NewInMemory.Save (ctxOf 1) "a" "x").ims (some .ErrConflict) [] ∧
    ((NewInMemory.Save (ctxOf 1) "a" "x").ims.Save (ctxOf 2) "a" "y").ims.Get (ctxOf 2) "a" =
      (NewInMemory.Save (ctxOf 1) "a" "x").ims.Get (ctxOf 2) "a" ∧
    ((NewInMemory.Save (ctxOf 1) "a" "x").ims.tombstoned "a" = false →
      ((NewInMemory.Save (ctxOf 1) "a" "x").ims.Save (ctxOf 2) "a" "y").ims.Get (ctxOf 2) "a" =
        .ok "x") :=
  ⟨rfl, by decide,
    save_existing_conflict (NewInMemory.Save (ctxOf 1) "a" "x").ims (ctxOf 2) 2 rfl "a" "x"
      (by decide) "y" (ctxOf 2)⟩

/-- C3, evaluated on the code: on a new store user 1 saves `a` and then deletes
it.  The tombstone map is nil, so `AsyncDeleteURLs` panics after it has removed
`a` from both mappings; on the store it leaves behind `Get` of `a` answers
`NotFound`, not `Deleted`, and user 2 saves `a` again with no `Conflict`. -/
theorem asyncDelete_new_store_panics :
    NewInMemory.deleted = none ∧
    (NewInMemory.Save (ctxOf 1) "a" "x").val? = some none ∧
    (NewInMemory.Save (ctxOf 1) "a" "x").ims.mapaccess 1 "a" = some "x" ∧
    ((NewInMemory.Save (ctxOf 1) "a" "x").ims.AsyncDeleteURLs (ctxOf 1) ["a"]).val? = none ∧
    ((NewInMemory.Save (ctxOf 1) "a" "x").ims.AsyncDeleteURLs (ctxOf 1) ["a"]).ims.Get
      (ctxOf 1) "a" = .error .ErrNotFound ∧
    (((NewInMemory.Save (ctxOf 1) "a" "x").ims.AsyncDeleteURLs (ctxOf 1) ["a"]).ims.Save
      (ctxOf 2) "a" "y").val? = some none := by
  refine ⟨rfl, rfl, by decide, rfl, rfl, rfl⟩

/-! ## The user counter -/

/-- C8: run on its own with at least one evaluation of the loop condition,
`AddUser(n)` on a store whose counter is `o` returns, and the store it leaves
has the counter `n` when `n > o` or (`n < o` and `n < 0`), the counter `o`
otherwise, and the same mappings and tombstones. -/
theorem addUser_counter (fuel : Nat) (ims : InMemory) (ctx : Context) (n : User) :
    ims.AddUser (fuel + 1) ctx n =
      some { shorts := ims.shorts, deleted := ims.deleted,
             users := if n > ims.users ∨ (n < ims.users ∧ n < 0) then n else ims.users } := by
  unfold AddUser
  simp only [addUserLoop, CompareAndSwapInt64]
  by_cases h : n > ims.users ∨ (n < ims.users ∧ n < 0)
  · simp [h]
  · simp [h]

/-- C9, evaluated on the code: from the counter 0 the registrations `AddUser(5)`
then `AddUser(-1)` end at -1, and in the other order they end at 5. -/
theorem addUser_order_matters :
    ((NewInMemory.AddUser 1 (ctxOf 0) 5).bind
      (fun ims => ims.AddUser 1 (ctxOf 0) (-1))).map (fun ims => ims.users) = some (-1) ∧
    ((NewInMemory.AddUser 1 (ctxOf 0) (-1)).bind
      (fun ims => ims.AddUser 1 (ctxOf 0) 5)).map (fun ims => ims.users) = some 5 := by
  constructor <;> rfl


/-! ## GetURLs -/

/-- Copying the entries of a map into `acc` with one assignment per entry gives
a map that reads as the source where the source has the key and as `acc`
elsewhere. -/
theorem lookup_foldl_insert (k : ShortID) :
    ∀ (l : List (Sigma fun _ : ShortID => FullURL)) (acc : SavedURLs), l.NodupKeys →
      (l.foldl (fun result e => AList.insert e.1 e.2 result) acc).lookup k =
        (List.dlookup k l).orElse (fun _ => acc.lookup k)
  | [], acc, _ => by simp
  | e :: t, acc, hnd => by
    rw [List.nodupKeys_cons] at hnd
    rw [List.foldl_cons, lookup_foldl_insert k t _ hnd.2]
    by_cases hk : k = e.1
    · subst hk
      have : List.dlookup e.1 t = none := List.dlookup_eq_none.mpr hnd.1
      rw [this]
      cases e
      simp
    · have hne : e.1 ≠ k := fun h => hk h.symm
      rw [AList.lookup_insert_ne hk]
      cases e
      rw [List.dlookup_cons_ne _ _ (by simpa using hk)]

/-- C10: under a context whose identity resolves, `GetURLs` fails `NotFound`
when the identity is `DefaultUser`, whatever the store holds.  For another
identity it fails `NotFound` exactly when the identity has no per-user mapping
or an empty one, and otherwise returns a map with the same keys and URLs as
that mapping.  `GetURLs` is a function of the store and returns no new store. -/
theorem getURLs_result (ims : InMemory) (ctx : Context) (user : User)
    (hctx : GetUser ctx = .ok user) :
    (user = DefaultUser → ims.GetURLs ctx = .error .ErrNotFound) ∧
    (user ≠ DefaultUser →
      (ims.GetURLs ctx = .error .ErrNotFound ↔
        ∀ m, ims.shorts.lookup user = some m → m.entries = []) ∧
      (∀ m, ims.shorts.lookup user = some m → m.entries ≠ [] →
        ∃ result, ims.GetURLs ctx = .ok result ∧
          ∀ sid, result.lookup sid = m.lookup sid)) := by
  constructor
  · intro hu
    simp [GetURLs, hctx, hu]
  · intro hu
    cases hm : ims.shorts.lookup user with
    | none =>
      have hres : ims.GetURLs ctx = .error .ErrNotFound := by
        simp [GetURLs, hctx, hu, hm]
      exact ⟨⟨fun _ m h => (by cases h), fun _ => hres⟩, fun m h => (by cases h)⟩
    | some m =>
      have hlook : ∀ sid, (m.entries.foldl (fun result e => AList.insert e.1 e.2 result)
          (∅ : SavedURLs)).lookup sid = m.lookup sid := by
        intro sid
        rw [lookup_foldl_insert sid m.entries ∅ m.nodupKeys]
        show (List.dlookup sid m.entries).orElse _ = List.dlookup sid m.entries
        cases List.dlookup sid m.entries <;> simp
      cases he : m.entries with
      | nil =>
        have hres : ims.GetURLs ctx = .error .ErrNotFound := by
          simp [GetURLs, hctx, hu, hm, he]
        exact ⟨⟨fun _ m' h => (by cases h; exact he), fun _ => hres⟩,
          fun m' h hne => (by cases h; exact absurd he hne)⟩
      | cons e t =>
        have hlen : (m.entries.foldl (fun result e => AList.insert e.1 e.2 result)
            (∅ : SavedURLs)).entries.length ≠ 0 := by
          intro h0
          have hnil := List.length_eq_zero.mp h0
          have h1 := hlook e.1
          have h2 : m.lookup e.1 = some e.2 := by
            show List.dlookup e.1 m.entries = some e.2
            rw [he]; cases e; simp
          rw [h2] at h1
          have h3 : (m.entries.foldl (fun result e => AList.insert e.1 e.2 result)
            (∅ : SavedURLs)).lookup e.1 = none := by
            show List.dlookup e.1 _ = none
            rw [hnil]; rfl
          rw [h3] at h1; cases h1
        have hres : ims.GetURLs ctx = .ok (m.entries.foldl
            (fun result e => AList.insert e.1 e.2 result) (∅ : SavedURLs)) := by
          simp only [GetURLs, hctx, hm]
          rw [if_neg hu, if_neg hlen]
        refine ⟨⟨fun h => ?_, fun h => ?_⟩, fun m' h _ => ?_⟩
        · rw [hres] at h; cases h
        · have := h m rfl; rw [he] at this; cases this
        · cases h; exact ⟨_, hres, hlook⟩

/-- The witness of C10: user 1 lists the one URL it saved. -/
theorem getURLs_result_witness :
    GetUser (ctxOf 1) = .ok 1 ∧
    ∃ result, (NewInMemory.Save (ctxOf 1) "a" "x").ims.GetURLs (ctxOf 1) = .ok result ∧
      ∀ sid, result.lookup sid = (AList.insert "a" "x" (∅ : SavedURLs)).lookup sid :=
  ⟨rfl, ((getURLs_result (NewInMemory.Save (ctxOf 1) "a" "x").ims (ctxOf 1) 1 rfl).2
    (by decide)).2 (AList.insert "a" "x" (∅ : SavedURLs)) rfl (by simp)⟩


/-! ## Tombstones -/

/-- C6: along every sequence of calls of the store, an id that is tombstoned at
the start is tombstoned at the end, every binding the id has at the end in the
global or in a per-user mapping is a binding it had at the start (no call
inserted it), and `Get` of the id at the end fails `Deleted`. -/
theorem tombstone_permanent (Short : FullURL → ShortID) (ims ims' : InMemory)
    (hrun : Relation.ReflTransGen (Step Short) ims ims') (sid : ShortID)
    (htomb : ims.tombstoned sid = true) :
    ims'.tombstoned sid = true ∧
    (∀ owner furl, ims'.mapaccess owner sid = some furl → ims.mapaccess owner sid = some furl) ∧
    (∀ ctx, ims'.Get ctx sid = .error .ErrDeleted) := by
  have key : ims'.tombstoned sid = true ∧
      (∀ owner furl, ims'.mapaccess owner sid = some furl →
        ims.mapaccess owner sid = some furl) := by
    induction hrun with
    | refl => exact ⟨htomb, fun _ _ h => h⟩
    | tail _ hstep ih =>
      obtain ⟨_, ht, hm⟩ := hstep.footprint
      exact ⟨ht sid ih.1, fun owner furl h => ih.2 owner furl (hm owner sid furl ih.1 h)⟩
  exact ⟨key.1, key.2, fun ctx => by simp [Get, key.1]⟩

/-- The witness of C6: user 1 saves the tombstoned id `a`. -/
theorem tombstone_permanent_witness :
    (InMemory.mk NewInMemory.shorts (some (AList.insert "a" () ∅)) 0).tombstoned "a" = true ∧
    ((InMemory.mk NewInMemory.shorts (some (AList.insert "a" () ∅)) 0).Save
      (ctxOf 1) "a" "x").ims.tombstoned "a" = true ∧
    (∀ owner furl,
      ((InMemory.mk NewInMemory.shorts (some (AList.insert "a" () ∅)) 0).Save
        (ctxOf 1) "a" "x").ims.mapaccess owner "a" = some furl →
      (InMemory.mk NewInMemory.shorts (some (AList.insert "a" () ∅)) 0).mapaccess owner "a" =
        some furl) ∧
    (∀ ctx, ((InMemory.mk NewInMemory.shorts (some (AList.insert "a" () ∅)) 0).Save
      (ctxOf 1) "a" "x").ims.Get ctx "a" = .error .ErrDeleted) :=
  ⟨by decide,
    tombstone_permanent (fun furl => furl) _ _
      (Relation.ReflTransGen.single (Step.save (ctxOf 1) "a" "x")) "a" (by decide)⟩

/-! ## Deletion under the identity `DefaultUser` -/

theorem GlobalCovers_NewInMemory : GlobalCovers NewInMemory := by
  intro user sid furl h
  by_cases hu : user = DefaultUser
  · subst hu; exact h
  · have : NewInMemory.mapaccess user sid = none := by
      unfold mapaccess NewInMemory
      rw [AList.lookup_insert_ne hu, AList.lookup_empty]
      rfl
    rw [this] at h; cases h

theorem GlobalCovers_Save {ims : InMemory} (h : GlobalCovers ims) (ctx : Context)
    (sid : ShortID) (furl : FullURL) : GlobalCovers (ims.Save ctx sid furl).ims := by
  rcases Save_ims_cases ims ctx sid furl with hsame | ⟨user, hctx, hdef, ht, hg⟩
  · rw [hsame]; exact h
  · obtain ⟨ims', spawned, hs, _, _, hm, _⟩ := Save_fresh furl hctx hdef ht hg
    rw [hs]
    intro o k x hx
    change ims'.mapaccess o k = some x at hx
    show ims'.mapaccess DefaultUser k = some x
    rw [hm] at hx ⊢
    by_cases hk : k = sid
    · subst hk
      by_cases ho : o = DefaultUser ∨ o = user
      · simpa [ho] using hx
      · simp only [ho, false_and, if_false] at hx
        have := h o k x hx
        rw [hg] at this; cases this
    · simp only [hk, and_false, if_false] at hx ⊢
      exact h o k x hx

/-- C5, evaluated on the code: after user 1 saved `a` the invariant holds.
`AsyncDeleteURLs` under the identity `DefaultUser` then finds `a` in the global
mapping, which is the caller's own mapping, and removes it there only: user 1
keeps `a`, the global mapping has lost it, and the invariant is broken.  This
is so on the new store, where the call panics after the removal, and on the
same store with an initialised tombstone map, where the call returns `a`. -/
theorem asyncDelete_default_breaks_invariant :
    GlobalCovers NewInMemory ∧
    GlobalCovers (NewInMemory.Save (ctxOf 1) "a" "x").ims ∧
    ¬ GlobalCovers
      ((NewInMemory.Save (ctxOf 1) "a" "x").ims.AsyncDeleteURLs (ctxOf DefaultUser) ["a"]).ims ∧
    GlobalCovers (InMemory.mk (NewInMemory.Save (ctxOf 1) "a" "x").ims.shorts (some ∅) 0) ∧
    ((InMemory.mk (NewInMemory.Save (ctxOf 1) "a" "x").ims.shorts (some ∅) 0).AsyncDeleteURLs
      (ctxOf DefaultUser) ["a"]).val? = some ["a"] ∧
    ¬ GlobalCovers
      ((InMemory.mk (NewInMemory.Save (ctxOf 1) "a" "x").ims.shorts (some ∅) 0).AsyncDeleteURLs
        (ctxOf DefaultUser) ["a"]).ims := by
  have h1 := GlobalCovers_Save GlobalCovers_NewInMemory (ctxOf 1) "a" "x"
  refine ⟨GlobalCovers_NewInMemory, h1, ?_, ?_, rfl, ?_⟩
  · intro h
    have := h 1 "a" "x" (by decide)
    revert this; decide
  · intro o k x hx; exact h1 o k x hx
  · intro h
    have := h 1 "a" "x" (by decide)
    revert this; decide

/-- C7, evaluated on the code: user 1 saved `a`, and `AsyncDeleteURLs` is called
with `a` under the different identity `DefaultUser`.  On the new store the call
panics after removing `a` from the global mapping and `Get` of `a` answers
`NotFound`; with an initialised tombstone map the call returns `a` and `Get` of
`a` answers `Deleted`.  Either way user 1 still lists `a`. -/
theorem asyncDelete_default_deletes_foreign :
    (NewInMemory.Save (ctxOf 1) "a" "x").ims.mapaccess 1 "a" = some "x" ∧
    (NewInMemory.Save (ctxOf 1) "a" "x").ims.Get (ctxOf 1) "a" = .ok "x" ∧
    ((NewInMemory.Save (ctxOf 1) "a" "x").ims.AsyncDeleteURLs (ctxOf DefaultUser) ["a"]).val?
      = none ∧
    ((NewInMemory.Save (ctxOf 1) "a" "x").ims.AsyncDeleteURLs (ctxOf DefaultUser) ["a"]).ims.Get
      (ctxOf 1) "a" = .error .ErrNotFound ∧
    ((InMemory.mk (NewInMemory.Save (ctxOf 1) "a" "x").ims.shorts (some ∅) 0).AsyncDeleteURLs
      (ctxOf DefaultUser) ["a"]).val? = some ["a"] ∧
    ((InMemory.mk (NewInMemory.Save (ctxOf 1) "a" "x").ims.shorts (some ∅) 0).AsyncDeleteURLs
      (ctxOf DefaultUser) ["a"]).ims.Get (ctxOf 1) "a" = .error .ErrDeleted ∧
    ((InMemory.mk (NewInMemory.Save (ctxOf 1) "a" "x").ims.shorts (some ∅) 0).AsyncDeleteURLs
      (ctxOf DefaultUser) ["a"]).ims.GetURLs (ctxOf 1) = .ok (AList.insert "a" "x" ∅) := by
  refine ⟨by decide, rfl, rfl, rfl, rfl, rfl, rfl⟩


/-! ## PutBatch -/

/-- The loop of `PutBatch` on a store that has the global and the caller's
mapping, over entries with distinct correlation ids and distinct derived ids:
it returns, an entry whose id is fresh is answered and stored, an entry whose
id collides is not answered, and other correlation ids keep their answer. -/
theorem InMemory.putBatchLoop_result (Short : FullURL → ShortID) (user : User)
    (spawned : List User) :
    ∀ (entries : List (Sigma fun _ : CorrID => FullURL)) (ims : InMemory)
      (result : BatchResponse),
      entries.NodupKeys → (entries.map (fun e => Short e.2)).Nodup →
      (ims.shorts.lookup DefaultUser).isSome = true → (ims.shorts.lookup user).isSome = true →
      (∀ e ∈ entries, result.lookup e.1 = none) →
      ∃ ims' response,
        putBatchLoop Short user spawned false entries ims result = .returned ims' (.ok response) spawned ∧
        (∀ c, c ∉ entries.keys → response.lookup c = result.lookup c) ∧
        (∀ e ∈ entries, ims.tombstoned (Short e.2) = false →
          ims.mapaccess DefaultUser (Short e.2) = none →
          response.lookup e.1 = some (Short e.2) ∧
            ims'.mapaccess DefaultUser (Short e.2) = some e.2) ∧
        (∀ e ∈ entries, (ims.tombstoned (Short e.2) = true ∨
            (ims.mapaccess DefaultUser (Short e.2)).isSome = true) →
          response.lookup e.1 = none)
  | [], ims, result, _, _, _, _, _ =>
    ⟨ims, result, rfl, fun _ _ => rfl, fun e he => absurd he (List.not_mem_nil e),
      fun e he => absurd he (List.not_mem_nil e)⟩
  | ⟨corrid, furl⟩ :: rest, ims, result, hkeys, hsids, hdef, huser, hres => by
    rw [List.nodupKeys_cons] at hkeys
    rw [List.map_cons, List.nodup_cons] at hsids
    have hres' : ∀ e ∈ rest, result.lookup e.1 = none :=
      fun e he => hres e (List.mem_cons_of_mem _ he)
    have hhead : result.lookup corrid = none := hres ⟨corrid, furl⟩ (List.mem_cons_self _ _)
    by_cases hfresh : ims.tombstoned (Short furl) = true ∨
        (ims.mapaccess DefaultUser (Short furl)).isSome = true
    · -- the entry collides and is skipped
      obtain ⟨ims', response, hrun, hA, hB1, hB2⟩ :=
        putBatchLoop_result Short user spawned rest ims result hkeys.2 hsids.2 hdef huser hres'
      refine ⟨ims', response, ?_, ?_, ?_, ?_⟩
      · rw [putBatchLoop_cons_skip _ _ _ _ _ _ _ _ _
          (hfresh.imp_right (fun h => ⟨rfl, h⟩))]
        exact hrun
      · intro c hc
        rw [List.keys_cons, List.mem_cons, not_or] at hc
        exact hA c hc.2
      · intro e he ht hg
        rcases List.mem_cons.mp he with rfl | he
        · rcases hfresh with h | h
          · rw [ht] at h; cases h
          · rw [hg] at h; cases h
        · exact hB1 e he ht hg
      · intro e he hcol
        rcases List.mem_cons.mp he with rfl | he
        · rw [hA corrid hkeys.1]; exact hhead
        · exact hB2 e he hcol
    · -- the entry is fresh and is stored
      have ht : ims.tombstoned (Short furl) = false := by
        cases h : ims.tombstoned (Short furl) with
        | false => rfl
        | true => exact absurd (Or.inl h) hfresh
      have hg : ims.mapaccess DefaultUser (Short furl) = none := by
        cases h : ims.mapaccess DefaultUser (Short furl) with
        | none => rfl
        | some x => exact absurd (Or.inr (by rw [h]; rfl)) hfresh
      obtain ⟨ims1, h1⟩ := mapassign_isSome (Short furl) furl hdef
      have huser1 : (ims1.shorts.lookup user).isSome = true := by
        rw [lookup_isSome_mapassign h1]; exact huser
      obtain ⟨ims2, h2⟩ := mapassign_isSome (Short furl) furl huser1
      have a1 := mapaccess_mapassign h1
      have a2 := mapaccess_mapassign h2
      have hdel : ims2.deleted = ims.deleted := by
        rw [deleted_mapassign h2, deleted_mapassign h1]
      have hdef2 : (ims2.shorts.lookup DefaultUser).isSome = true := by
        rw [lookup_isSome_mapassign h2, lookup_isSome_mapassign h1]; exact hdef
      have huser2 : (ims2.shorts.lookup user).isSome = true := by
        rw [lookup_isSome_mapassign h2]; exact huser1
      have hres2 : ∀ e ∈ rest, (AList.insert corrid (Short furl) result).lookup e.1 = none := by
        intro e he
        have hne : e.1 ≠ corrid := by
          intro heq
          have hmem : e.1 ∈ rest.keys := List.mem_keys_of_mem (s := e) he
          rw [heq] at hmem
          exact hkeys.1 hmem
        rw [AList.lookup_insert_ne hne]; exact hres' e he
      obtain ⟨ims', response, hrun, hA, hB1, hB2⟩ :=
        putBatchLoop_result Short user spawned rest ims2 _ hkeys.2 hsids.2 hdef2 huser2 hres2
      have hglob2 : ims2.mapaccess DefaultUser (Short furl) = some furl := by
        rw [a2, a1]; simp
      have hrest : ∀ e ∈ rest, Short e.2 ≠ Short furl := by
        intro e he heq
        exact hsids.1 (List.mem_map.mpr ⟨e, he, heq⟩)
      refine ⟨ims', response, ?_, ?_, ?_, ?_⟩
      · rw [putBatchLoop_cons_insert _ _ _ _ _ _ _ _ _ _ ht hg h1 h2]; exact hrun
      · intro c hc
        rw [List.keys_cons, List.mem_cons, not_or] at hc
        rw [hA c hc.2, AList.lookup_insert_ne hc.1]
      · intro e he hte hge
        rcases List.mem_cons.mp he with rfl | he
        · constructor
          · rw [hA corrid hkeys.1, AList.lookup_insert]
          · by_contra hne
            have hfp := (putBatchLoop_footprint Short user spawned false rest ims2
              (AList.insert corrid (Short furl) result)).2.2.2 DefaultUser (Short furl)
            rw [hrun] at hfp
            have := (hfp (by
              show ims'.mapaccess DefaultUser (Short furl) ≠ _
              rw [hglob2]; exact hne)).2
            rw [hglob2] at this; cases this
        · have hk := hrest e he
          apply hB1 e he
          · rw [tombstoned_congr hdel]; exact hte
          · rw [a2, a1]; simpa [hk] using hge
      · intro e he hcol
        rcases List.mem_cons.mp he with rfl | he
        · exact absurd hcol hfresh
        · have hk := hrest e he
          apply hB2 e he
          rw [tombstoned_congr hdel, a2, a1]
          simpa [hk] using hcol

theorem InMemory.PutBatch_loop {ims : InMemory} {ctx : Context} {user : User}
    (Short : FullURL → ShortID) (hctx : GetUser ctx = .ok user) (batch : BatchRequest) :
    ims.PutBatch Short ctx batch =
      putBatchLoop Short user (if (ims.shorts.lookup user).isNone then [user] else [])
        (ims.shorts.lookup DefaultUser).isNone batch.entries
        (if (ims.shorts.lookup user).isNone then
          ({ ims with shorts := AList.insert user (∅ : SavedURLs) ims.shorts } : InMemory)
        else ims) ∅ := by
  simp only [PutBatch, hctx]

/-- C4: on a store that has its global mapping, for a caller whose identity
resolves and a batch whose URLs derive pairwise distinct ids, `PutBatch` returns
with no error.  The response has a correlation id exactly when it is a key of
the batch and the id derived from its URL was neither tombstoned nor in the
global mapping before the call; the response maps it to that derived id, and
`Get` of the id on the store after the call returns the URL of the entry.  For
an entry that collides, every mapping reads at its id as before the call. -/
theorem putBatch_result (Short : FullURL → ShortID) (ims : InMemory) (ctx : Context)
    (user : User) (hctx : GetUser ctx = .ok user)
    (hglobal : (ims.shorts.lookup DefaultUser).isSome = true) (batch : BatchRequest)
    (hdistinct : (batch.entries.map (fun e => Short e.2)).Nodup) (ctx' : Context) :
    ∃ ims' response spawned,
      ims.PutBatch Short ctx batch = .returned ims' (.ok response) spawned ∧
      (∀ corrid, batch.lookup corrid = none → response.lookup corrid = none) ∧
      (∀ corrid furl, batch.lookup corrid = some furl →
        ((response.lookup corrid).isSome = true ↔
          (ims.tombstoned (Short furl) = false ∧
            ims.mapaccess DefaultUser (Short furl) = none)) ∧
        (∀ sid, response.lookup corrid = some sid →
          sid = Short furl ∧ ims'.Get ctx' sid = .ok furl) ∧
        (¬ (ims.tombstoned (Short furl) = false ∧
              ims.mapaccess DefaultUser (Short furl) = none) →
          ∀ owner, ims'.mapaccess owner (Short furl) = ims.mapaccess owner (Short furl))) := by
  have hacc := mapaccess_create ims user
  have hdel : (if (ims.shorts.lookup user).isNone then
        ({ ims with shorts := AList.insert user (∅ : SavedURLs) ims.shorts } : InMemory)
      else ims).deleted = ims.deleted := by split <;> rfl
  have htomb := tombstoned_congr hdel
  have hnil : (ims.shorts.lookup DefaultUser).isNone = false := by
    cases h : ims.shorts.lookup DefaultUser with
    | none => rw [h] at hglobal; cases hglobal
    | some m => rfl
  have hloop := @PutBatch_loop ims ctx user Short hctx batch
  rw [hnil] at hloop
  obtain ⟨ims', response, hrun, hA, hB1, hB2⟩ :=
    putBatchLoop_result Short user (if (ims.shorts.lookup user).isNone then [user] else [])
      batch.entries
      (if (ims.shorts.lookup user).isNone then
        ({ ims with shorts := AList.insert user (∅ : SavedURLs) ims.shorts } : InMemory)
      else ims) ∅ batch.nodupKeys hdistinct
      (by rw [lookup_isSome_create, hglobal]; rfl) (by rw [lookup_isSome_create]; simp)
      (fun e _ => AList.lookup_empty e.1)
  have hfoot := putBatchLoop_footprint Short user
    (if (ims.shorts.lookup user).isNone then [user] else []) false batch.entries
      (if (ims.shorts.lookup user).isNone then
        ({ ims with shorts := AList.insert user (∅ : SavedURLs) ims.shorts } : InMemory)
      else ims) ∅
  rw [hrun] at hfoot
  obtain ⟨hd', _, _, hm'⟩ := hfoot
  change ims'.deleted = _ at hd'
  rw [hdel] at hd'
  simp only [hacc, htomb] at hB1 hB2 hm'
  change ∀ o k, ims'.mapaccess o k ≠ _ → _ at hm'
  refine ⟨ims', response, _, hloop.trans hrun, ?_, ?_⟩
  · intro corrid hnone
    have hnot : corrid ∉ batch.entries.keys := by
      have := AList.lookup_eq_none.mp hnone
      exact fun h => this (AList.mem_keys.mpr h)
    rw [hA corrid hnot]; exact AList.lookup_empty corrid
  · intro corrid furl hsome
    have hmem : (⟨corrid, furl⟩ : Sigma fun _ : CorrID => FullURL) ∈ batch.entries :=
      AList.mem_lookup_iff.mp hsome
    have hstored : ims.tombstoned (Short furl) = false →
        ims.mapaccess DefaultUser (Short furl) = none →
        response.lookup corrid = some (Short furl) ∧
          ims'.mapaccess DefaultUser (Short furl) = some furl := hB1 ⟨corrid, furl⟩ hmem
    have hskipped : (ims.tombstoned (Short furl) = true ∨
        (ims.mapaccess DefaultUser (Short furl)).isSome = true) →
        response.lookup corrid = none := hB2 ⟨corrid, furl⟩ hmem
    have hcases : (ims.tombstoned (Short furl) = false ∧
        ims.mapaccess DefaultUser (Short furl) = none) ∨
        (ims.tombstoned (Short furl) = true ∨
          (ims.mapaccess DefaultUser (Short furl)).isSome = true) := by
      cases ims.tombstoned (Short furl) <;> cases ims.mapaccess DefaultUser (Short furl) <;> simp
    refine ⟨⟨fun h => ?_, fun h => ?_⟩, fun sid hsid => ?_, fun hcol owner => ?_⟩
    · rcases hcases with hf | hc
      · exact hf
      · rw [hskipped hc] at h; cases h
    · rw [(hstored h.1 h.2).1]; rfl
    · rcases hcases with hf | hc
      · obtain ⟨h1, h2⟩ := hstored hf.1 hf.2
        rw [h1] at hsid
        cases hsid
        refine ⟨rfl, ?_⟩
        have ht' : ims'.tombstoned (Short furl) = false := by
          rw [tombstoned_congr hd']; exact hf.1
        simp [Get, ht', h2]
      · rw [hskipped hc] at hsid; cases hsid
    · by_contra hne
      exact hcol (hm' owner (Short furl) hne)

/-- The witness of C4: after user 1 stored the URL `x`, user 2 puts the batch
of `x`, which collides, and `y`, which is new; the id of a URL is the URL. -/
theorem putBatch_result_witness :
    GetUser (ctxOf 2) = .ok 2 ∧
    ((NewInMemory.Save (ctxOf 1) "x" "x").ims.shorts.lookup DefaultUser).isSome = true ∧
    ((AList.insert "c2" "y" (AList.insert "c1" "x" ∅) : BatchRequest).entries.map
      (fun e => (fun furl : FullURL => furl) e.2)).Nodup ∧
    ∃ ims' response spawned,
      (NewInMemory.Save (ctxOf 1) "x" "x").ims.PutBatch (fun furl => furl) (ctxOf 2)
        (AList.insert "c2" "y" (AList.insert "c1" "x" ∅)) =
          .returned ims' (.ok response) spawned ∧
      response.lookup "c1" = none ∧
      response.lookup "c2" = some "y" ∧
      ims'.Get (ctxOf 1) "y" = .ok "y" ∧
      ims'.mapaccess DefaultUser "x" = some "x" := by
  refine ⟨rfl, by decide, by decide, ?_⟩
  obtain ⟨ims', response, spawned, hrun, _, hent⟩ :=
    putBatch_result (fun furl => furl) (NewInMemory.Save (ctxOf 1) "x" "x").ims (ctxOf 2) 2 rfl
      (by decide) (AList.insert "c2" "y" (AList.insert "c1" "x" ∅)) (by decide) (ctxOf 1)
  obtain ⟨h1, _, h1c⟩ := hent "c1" "x" (by decide)
  obtain ⟨h2, h2s, _⟩ := hent "c2" "y" (by decide)
  have hc2 : (response.lookup "c2").isSome = true := h2.mpr ⟨by decide, by decide⟩
  obtain ⟨sid, hsid⟩ := Option.isSome_iff_exists.mp hc2
  obtain ⟨hsidy, hget⟩ := h2s sid hsid
  refine ⟨ims', response, spawned, hrun, ?_, ?_, ?_, ?_⟩
  · cases h : response.lookup "c1" with
    | none => rfl
    | some v =>
      have hfresh := (h1.mp (by rw [h]; rfl)).2
      have hx : (NewInMemory.Save (ctxOf 1) "x" "x").ims.mapaccess DefaultUser "x" = some "x" := by
        decide
      rw [hx] at hfresh; cases hfresh
  · rw [hsid, hsidy]
  · subst hsidy; exact hget
  · rw [h1c (by decide) DefaultUser]; decide

/-! ## The persistent wrapper -/

theorem foldl_append_singleton {α β : Type} (f : α → β) :
    ∀ (l : List α) (acc : List β),
      l.foldl (fun update a => update ++ [f a]) acc = acc ++ l.map f
  | [], acc => by simp
  | a :: t, acc => by
    rw [List.foldl_cons, foldl_append_singleton f t, List.map_cons, List.append_assoc]
    rfl

/-- Every answer in the response of the loop of `PutBatch` was in the response
before or is the id derived from the URL of the batch entry it answers. -/
theorem InMemory.putBatchLoop_response (Short : FullURL → ShortID) (user : User)
    (spawned : List User) (defaultNil : Bool) :
    ∀ (entries : List (Sigma fun _ : CorrID => FullURL)) (ims : InMemory)
      (result : BatchResponse) (ims' : InMemory) (response : BatchResponse) (sp : List User),
      putBatchLoop Short user spawned defaultNil entries ims result =
        .returned ims' (.ok response) sp →
      ∀ c sid, response.lookup c = some sid →
        result.lookup c = some sid ∨
          ∃ furl, (⟨c, furl⟩ : Sigma fun _ : CorrID => FullURL) ∈ entries ∧ sid = Short furl := by
  intro entries
  induction entries with
  | nil =>
    intro ims result ims' response sp h c sid hc
    rw [putBatchLoop] at h
    cases h
    exact Or.inl hc
  | cons e rest ih =>
    intro ims result ims' response sp h c sid hc
    obtain ⟨corrid, furl⟩ := e
    have lift : (result.lookup c = some sid ∨
        ∃ furl', (⟨c, furl'⟩ : Sigma fun _ : CorrID => FullURL) ∈ rest ∧ sid = Short furl') →
        result.lookup c = some sid ∨
          ∃ furl', (⟨c, furl'⟩ : Sigma fun _ : CorrID => FullURL) ∈
            (⟨corrid, furl⟩ :: rest) ∧ sid = Short furl' := by
      rintro (h1 | ⟨f, hf, hs⟩)
      · exact Or.inl h1
      · exact Or.inr ⟨f, List.mem_cons_of_mem _ hf, hs⟩
    cases ht : ims.tombstoned (Short furl) with
    | true =>
      rw [putBatchLoop_cons_skip _ _ _ _ _ _ _ _ _ (Or.inl ht)] at h
      exact lift (ih ims result ims' response sp h c sid hc)
    | false =>
      cases defaultNil with
      | true =>
        rw [putBatchLoop_cons_nil_alias _ _ _ _ _ _ _ _ ht] at h
        cases h
      | false =>
        cases hg : ims.mapaccess DefaultUser (Short furl) with
        | some x =>
          rw [putBatchLoop_cons_skip _ _ _ _ _ _ _ _ _ (Or.inr ⟨rfl, by rw [hg]; rfl⟩)] at h
          exact lift (ih ims result ims' response sp h c sid hc)
        | none =>
          cases h1 : ims.mapassign DefaultUser (Short furl) furl with
          | none =>
            rw [putBatchLoop_cons_nil_global _ _ _ _ _ _ _ _ ht hg h1] at h
            cases h
          | some ims1 =>
            cases h2 : ims1.mapassign user (Short furl) furl with
            | none =>
              rw [putBatchLoop_cons_nil_user _ _ _ _ _ _ _ _ _ ht hg h1 h2] at h
              cases h
            | some ims2 =>
              rw [putBatchLoop_cons_insert _ _ _ _ _ _ _ _ _ _ ht hg h1 h2] at h
              rcases ih ims2 _ ims' response sp h c sid hc with hin | ⟨f, hf, hs⟩
              · by_cases hcc : c = corrid
                · subst hcc
                  rw [AList.lookup_insert] at hin
                  cases hin
                  exact Or.inr ⟨furl, List.mem_cons_self _ _, rfl⟩
                · rw [AList.lookup_insert_ne hcc] at hin
                  exact Or.inl hin
              · exact Or.inr ⟨f, List.mem_cons_of_mem _ hf, hs⟩

open InMemory

/-- C13: the persistent `Save`, `PutBatch` and `AsyncDeleteURLs` return the
value of the in-memory call unchanged and pass a panic of it on.  `Save` gives
`writeUpdates` one update with the one live record of the id, the URL and the
caller when the in-memory `Save` returned no error, and gives it nothing
otherwise.  `PutBatch` gives it one update with one live record per entry of
the response, in order, with the id of the entry and the URL the batch has for
its correlation id.  `AsyncDeleteURLs` writes one record with `deleted` set per
id of the returned list, in order, and writes nothing when the identity does
not resolve, in which case the list is empty. -/
theorem infile_passes_through (json : JSON) (Short : FullURL → ShortID) (ifs : InFile)
    (file : List Byte) (ctx : Context) :
    (∀ sid furl,
      (∀ ims' spawned, ifs.ims.Save ctx sid furl = .panicked ims' spawned →
        ifs.Save ctx sid furl = .panicked { ifs with ims := ims' } spawned) ∧
      (∀ ims' err spawned, ifs.ims.Save ctx sid furl = .returned ims' (some err) spawned →
        ifs.Save ctx sid furl = .returned { ifs with ims := ims' } (some err) spawned []) ∧
      (∀ ims' spawned, ifs.ims.Save ctx sid furl = .returned ims' none spawned →
        ∃ user, GetUser ctx = .ok user ∧
          ifs.Save ctx sid furl = .returned { ifs with ims := ims' } none spawned
            [[{ Sid := sid, Furl := furl, User := user, Deleted := false }]])) ∧
    (∀ batch,
      (∀ ims' spawned, ifs.ims.PutBatch Short ctx batch = .panicked ims' spawned →
        ifs.PutBatch Short ctx batch = .panicked { ifs with ims := ims' } spawned) ∧
      (∀ ims' err spawned, ifs.ims.PutBatch Short ctx batch = .returned ims' (.error err) spawned →
        ifs.PutBatch Short ctx batch =
          .returned { ifs with ims := ims' } (.error err) spawned []) ∧
      (∀ ims' response spawned,
        ifs.ims.PutBatch Short ctx batch = .returned ims' (.ok response) spawned →
        ∃ user update, GetUser ctx = .ok user ∧
          ifs.PutBatch Short ctx batch =
            .returned { ifs with ims := ims' } (.ok response) spawned [update] ∧
          List.Forall₂ (fun (e : Sigma fun _ : CorrID => ShortID) (r : shortedURL) =>
            r.Sid = e.2 ∧ batch.lookup e.1 = some r.Furl ∧ r.User = user ∧ r.Deleted = false)
            response.entries update)) ∧
    (∀ sids,
      (∀ ims' spawned, ifs.ims.AsyncDeleteURLs ctx sids = .panicked ims' spawned →
        ifs.AsyncDeleteURLs json file ctx sids =
          (.panicked { ifs with ims := ims' } spawned, file)) ∧
      (∀ ims' result spawned, ifs.ims.AsyncDeleteURLs ctx sids = .returned ims' result spawned →
        (∀ err, GetUser ctx = .error err →
          result = [] ∧
          ifs.AsyncDeleteURLs json file ctx sids =
            (.returned { ifs with ims := ims' } result spawned [], file)) ∧
        (∀ user, GetUser ctx = .ok user →
          ifs.AsyncDeleteURLs json file ctx sids =
            (.returned
              (InFile.writeUpdates json { ifs with ims := ims' } file
                (result.map (fun sid =>
                  { Sid := sid, Furl := DefaultFullURL, User := user, Deleted := true }))).1
              result spawned [],
             (InFile.writeUpdates json { ifs with ims := ims' } file
                (result.map (fun sid =>
                  { Sid := sid, Furl := DefaultFullURL, User := user, Deleted := true }))).2)))) := by
  refine ⟨fun sid furl => ⟨?_, ?_, ?_⟩, fun batch => ⟨?_, ?_, ?_⟩, fun sids => ⟨?_, ?_⟩⟩
  · intro ims' spawned h
    simp only [InFile.Save, h]
  · intro ims' err spawned h
    simp only [InFile.Save, h]
  · intro ims' spawned h
    cases hctx : GetUser ctx with
    | error err =>
      rw [Save_unauthenticated hctx] at h
      cases h
    | ok user =>
      refine ⟨user, rfl, ?_⟩
      simp only [InFile.Save, h, InFile.userOf, hctx, List.nil_append]
  · intro ims' spawned h
    simp only [InFile.PutBatch, h]
  · intro ims' err spawned h
    simp only [InFile.PutBatch, h]
  · intro ims' response spawned h
    cases hctx : GetUser ctx with
    | error err =>
      simp only [InMemory.PutBatch, hctx] at h
      cases h
    | ok user =>
      refine ⟨user, response.entries.map (fun e =>
        ({ Sid := e.2, Furl := (batch.lookup e.1).getD "", User := user,
           Deleted := false } : shortedURL)), rfl, ?_, ?_⟩
      · simp only [InFile.PutBatch, h, InFile.userOf, hctx]
        rw [foldl_append_singleton]
        rfl
      · rw [PutBatch_loop Short hctx batch] at h
        have hfrom := putBatchLoop_response Short user _ _ batch.entries _ ∅ ims' response
          spawned h
        rw [List.forall₂_map_right_iff]
        apply List.forall₂_same.mpr
        intro e he
        have hlook : response.lookup e.1 = some e.2 := by
          apply AList.mem_lookup_iff.mpr
          cases e; exact he
        rcases hfrom e.1 e.2 hlook with hin | ⟨f, hf, hs⟩
        · rw [AList.lookup_empty] at hin; cases hin
        · have hb : batch.lookup e.1 = some f := AList.mem_lookup_iff.mpr hf
          refine ⟨rfl, ?_, rfl, rfl⟩
          rw [hb]; rfl
  · intro ims' spawned h
    simp only [InFile.AsyncDeleteURLs, h]
  · intro ims' result spawned h
    constructor
    · intro err hctx
      rw [AsyncDeleteURLs_unauthenticated hctx] at h
      cases h
      refine ⟨rfl, ?_⟩
      simp only [InFile.AsyncDeleteURLs, AsyncDeleteURLs_unauthenticated hctx, hctx]
    · intro user hctx
      simp only [InFile.AsyncDeleteURLs, h, hctx]
      rw [foldl_append_singleton]
      rfl

/-- The witness of C13: user 1 saves `a` through the persistent store. -/
theorem infile_passes_through_witness :
    NewInMemory.Save (ctxOf 1) "a" "x" =
      .returned (NewInMemory.Save (ctxOf 1) "a" "x").ims none [1] ∧
    ∃ user, GetUser (ctxOf 1) = .ok user ∧
      newStore.Save (ctxOf 1) "a" "x" =
        .returned { newStore with ims := (NewInMemory.Save (ctxOf 1) "a" "x").ims } none [1]
          [[{ Sid := "a", Furl := "x", User := user, Deleted := false }]] :=
  ⟨rfl, ((infile_passes_through exampleJSON (fun furl => furl) newStore [] (ctxOf 1)).1
    "a" "x").2.2 (NewInMemory.Save (ctxOf 1) "a" "x").ims [1] rfl⟩

open InMemory

/-! ## readUpdates and the lines of the file -/

theorem completeLines_cons (b : Byte) (rest : List Byte) :
    completeLines (b :: rest) =
      if b = '\n' then ['\n'] :: completeLines rest
      else (completeLines rest).modifyHead (List.cons b) := by
  unfold completeLines List.splitOn
  rw [List.splitOnP_cons]
  have hne := List.splitOnP_ne_nil (fun x => x == '\n') rest
  by_cases hb : b = '\n'
  · subst hb
    simp only [beq_self_eq_true, if_true]
    cases hs : List.splitOnP (fun x => x == '\n') rest with
    | nil => exact absurd hs hne
    | cons x t => simp
  · have hb' : (b == '\n') = false := by simpa using hb
    simp only [hb', Bool.false_eq_true, if_false, hb]
    cases hs : List.splitOnP (fun x => x == '\n') rest with
    | nil => exact absurd hs hne
    | cons x t =>
      cases t with
      | nil => simp
      | cons y t' => simp

theorem ReadBytes_completeLines :
    ∀ (buffered : List Byte),
      (ReadBytes '\n' buffered = none → completeLines buffered = []) ∧
      (∀ line rest, ReadBytes '\n' buffered = some (line, rest) →
        completeLines buffered = line :: completeLines rest ∧ rest.length < buffered.length)
  | [] => ⟨fun _ => by decide, fun line rest h => by simp [ReadBytes] at h⟩
  | b :: tail => by
    obtain ⟨ih1, ih2⟩ := ReadBytes_completeLines tail
    rw [completeLines_cons]
    by_cases hb : b = '\n'
    · subst hb
      constructor
      · intro h; simp [ReadBytes] at h
      · intro line rest h
        simp only [ReadBytes, if_true, Option.some.injEq, Prod.mk.injEq] at h
        obtain ⟨rfl, rfl⟩ := h
        simp
    · simp only [hb, if_false]
      cases hr : ReadBytes '\n' tail with
      | none =>
        constructor
        · intro _; rw [ih1 hr]; rfl
        · intro line rest h
          simp [ReadBytes, hb, hr] at h
      | some p =>
        obtain ⟨line', rest'⟩ := p
        obtain ⟨hc, hl⟩ := ih2 line' rest' hr
        constructor
        · intro h; simp [ReadBytes, hb, hr] at h
        · intro line rest h
          simp only [ReadBytes, hb, if_false, hr, Option.some.injEq, Prod.mk.injEq] at h
          obtain ⟨rfl, rfl⟩ := h
          rw [hc]
          exact ⟨rfl, Nat.lt_succ_of_lt hl⟩

/-- One step of `replayLines` is the decoding of the line into `s` followed by
the loop body of `readUpdates`. -/
theorem replayLines_cons (json : JSON) (line : List Byte) (rest : List (List Byte))
    (ims : InMemory) (s : shortedURL) (spawned : List User) :
    replayLines json (line :: rest) ims s spawned =
      if (json.Unmarshal line).err then
        replayLines json rest ims ((json.Unmarshal line).assign s) spawned
      else
        match InFile.replay ims ((json.Unmarshal line).assign s) with
        | .returned ims' _ sp =>
          replayLines json rest ims' ((json.Unmarshal line).assign s) (spawned ++ sp)
        | .panicked ims' sp => .panicked ims' (spawned ++ sp) := by
  rw [replayLines]
  unfold InFile.replay Decoded.assign
  cases (json.Unmarshal line).err with
  | true => rfl
  | false =>
    simp only [Bool.false_eq_true, if_false]
    cases ((json.Unmarshal line).Deleted.getD s.Deleted) with
    | true =>
      simp only [if_true]
      cases InMemory.AsyncDeleteURLs ims (ctxOf ((json.Unmarshal line).User.getD s.User))
        [(json.Unmarshal line).Sid.getD s.Sid] <;> rfl
    | false =>
      simp only [Bool.false_eq_true, if_false]
      cases InMemory.Save ims (ctxOf ((json.Unmarshal line).User.getD s.User))
        ((json.Unmarshal line).Sid.getD s.Sid) ((json.Unmarshal line).Furl.getD s.Furl) <;> rfl

/-- With more fuel than buffered bytes the loop of `readUpdates` ends, and it
has replayed the newline-terminated lines of the buffer in order. -/
theorem InFile.readLoop_eq_replayLines (json : JSON) :
    ∀ (fuel : Nat) (ims : InMemory) (s : shortedURL) (buffered : List Byte)
      (spawned : List User), buffered.length < fuel →
      InFile.readLoop json fuel ims s buffered spawned =
        some (replayLines json (completeLines buffered) ims s spawned)
  | 0, _, _, _, _, h => absurd h (Nat.not_lt_zero _)
  | fuel + 1, ims, s, buffered, spawned, h => by
    obtain ⟨h1, h2⟩ := ReadBytes_completeLines buffered
    rw [InFile.readLoop]
    cases hr : ReadBytes '\n' buffered with
    | none => rw [h1 hr]; rfl
    | some p =>
      obtain ⟨line, rest⟩ := p
      obtain ⟨hc, hl⟩ := h2 line rest hr
      have hfuel : rest.length < fuel := by omega
      rw [hc, replayLines_cons]
      simp only
      cases he : (json.Unmarshal line).err with
      | true =>
        simp only [if_true]
        exact InFile.readLoop_eq_replayLines json fuel _ _ _ _ hfuel
      | false =>
        simp only [Bool.false_eq_true, if_false]
        cases hp : InFile.replay ims ((json.Unmarshal line).assign s) with
        | returned ims' v sp =>
          exact InFile.readLoop_eq_replayLines json fuel _ _ _ _ hfuel
        | panicked ims' sp => rfl

open InMemory

/-- With enough fuel `readUpdates` is the replay of the lines from the offset
it starts at, followed by the update of the tracked offset. -/
theorem InFile.readUpdates_of_replayLines (json : JSON) (fuel : Nat) (ifs : InFile)
    (file : List Byte) (hfuel : file.length < fuel) (start : Int) (hstart : 0 ≤ start)
    (hreset : (if (file.length : Int) < ifs.seek then (0 : Int) else ifs.seek) = start) :
    ifs.readUpdates json fuel file =
      some (match replayLines json (completeLines (file.drop start.toNat)) ifs.ims
          { Sid := "", Furl := "", User := 0, Deleted := false } [] with
        | .returned ims _ spawned =>
          .returned { ims := ims, filename := ifs.filename, seek := file.length } spawned
        | .panicked ims spawned =>
          .panicked { ims := ims, filename := ifs.filename, seek := start } spawned) := by
  have hlen : (file.drop start.toNat).length < fuel := by
    rw [List.length_drop]; omega
  have hloop := InFile.readLoop_eq_replayLines json fuel ifs.ims
    { Sid := "", Furl := "", User := 0, Deleted := false } (file.drop start.toNat) [] hlen
  unfold InFile.readUpdates
  by_cases hlt : (file.length : Int) < ifs.seek
  · rw [if_pos hlt] at hreset
    subst hreset
    simp only [hlt, if_true]
    rw [if_neg (by decide)]
    rw [hloop]
    cases replayLines json (completeLines (List.drop (0 : Int).toNat file)) ifs.ims
      { Sid := "", Furl := "", User := 0, Deleted := false } [] <;> rfl
  · rw [if_neg hlt] at hreset
    subst hreset
    simp only [hlt, if_false]
    rw [if_neg (by omega)]
    rw [hloop]
    cases replayLines json (completeLines (List.drop ifs.seek.toNat file)) ifs.ims
      { Sid := "", Furl := "", User := 0, Deleted := false } [] <;> rfl

/-- C16: `readUpdates` with more fuel than the file has bytes, on a tracked
offset that is not negative, ends without an error return.  It returns nil
exactly when the replay of the newline-terminated lines of the bytes from the
tracked offset on (file not shorter than the offset), or of the whole file
(file shorter than the offset), returns, where that replay is `replayLines`:
the `Save` and `AsyncDeleteURLs` calls of the in-memory store on the decoded
lines, in order.  The in-memory store is then the one those calls leave, and
the tracked offset is the size of the file. -/
theorem readUpdates_replays_lines (json : JSON) (fuel : Nat) (ifs : InFile) (file : List Byte)
    (hfuel : file.length < fuel) (hseek : 0 ≤ ifs.seek) :
    (∃ ifs' spawned, ifs.readUpdates json fuel file = some (.returned ifs' spawned) ∨
      ifs.readUpdates json fuel file = some (.panicked ifs' spawned)) ∧
    (ifs.seek ≤ file.length → ∀ ifs' spawned,
      (ifs.readUpdates json fuel file = some (.returned ifs' spawned) ↔
        (replayLines json (completeLines (file.drop ifs.seek.toNat)) ifs.ims
            { Sid := "", Furl := "", User := 0, Deleted := false } [] =
          .returned ifs'.ims () spawned ∧
         ifs'.seek = file.length ∧ ifs'.filename = ifs.filename))) ∧
    ((file.length : Int) < ifs.seek → ∀ ifs' spawned,
      (ifs.readUpdates json fuel file = some (.returned ifs' spawned) ↔
        (replayLines json (completeLines file) ifs.ims
            { Sid := "", Furl := "", User := 0, Deleted := false } [] =
          .returned ifs'.ims () spawned ∧
         ifs'.seek = file.length ∧ ifs'.filename = ifs.filename))) := by
  have key : ∀ (start : Int), 0 ≤ start →
      (if (file.length : Int) < ifs.seek then (0 : Int) else ifs.seek) = start →
      (∃ ifs' spawned, ifs.readUpdates json fuel file = some (.returned ifs' spawned) ∨
        ifs.readUpdates json fuel file = some (.panicked ifs' spawned)) ∧
      ∀ ifs' spawned,
        (ifs.readUpdates json fuel file = some (.returned ifs' spawned) ↔
          (replayLines json (completeLines (file.drop start.toNat)) ifs.ims
              { Sid := "", Furl := "", User := 0, Deleted := false } [] =
            .returned ifs'.ims () spawned ∧
           ifs'.seek = file.length ∧ ifs'.filename = ifs.filename)) := by
    intro start hstart hreset
    have heq := InFile.readUpdates_of_replayLines json fuel ifs file hfuel start hstart hreset
    cases hrep : replayLines json (completeLines (file.drop start.toNat)) ifs.ims
        { Sid := "", Furl := "", User := 0, Deleted := false } [] with
    | returned ims v sp =>
      rw [hrep] at heq
      refine ⟨⟨_, sp, Or.inl heq⟩, fun ifs' spawned => ?_⟩
      rw [heq]
      constructor
      · intro h
        simp only [Option.some.injEq, ReadOutcome.returned.injEq] at h
        obtain ⟨h1, h2⟩ := h
        subst h1 h2
        exact ⟨rfl, rfl, rfl⟩
      · rintro ⟨h1, h2, h3⟩
        simp only [Outcome.returned.injEq] at h1
        obtain ⟨h1a, _, h1c⟩ := h1
        cases ifs'
        simp only at h1a h2 h3
        subst h1a h2 h3 h1c
        rfl
    | panicked ims sp =>
      rw [hrep] at heq
      refine ⟨⟨_, sp, Or.inr heq⟩, fun ifs' spawned => ?_⟩
      rw [heq]
      constructor
      · intro h; simp at h
      · rintro ⟨h1, _, _⟩; simp at h1
  refine ⟨?_, ?_, ?_⟩
  · by_cases hlt : (file.length : Int) < ifs.seek
    · exact (key 0 (le_refl 0) (if_pos hlt)).1
    · exact (key ifs.seek hseek (if_neg hlt)).1
  · intro hge
    exact (key ifs.seek hseek (if_neg (by omega))).2
  · intro hlt
    have := (key 0 (le_refl 0) (if_pos hlt)).2
    simpa using this

/-- The witness of C16: the log holds the line of `a` and a fragment.  A new
store (offset 0) replays the line as the `Save` of `a` by user 1 and ends at
offset 54, the size of the file; a store whose offset 500 is beyond the file
replays the whole file and ends at the same store and offset. -/
theorem readUpdates_replays_lines_witness :
    (textLiveA ++ ['\n'] ++ "\x7b\"id\":".toList).length < 100 ∧ 0 ≤ newStore.seek ∧
    newStore.seek ≤ (textLiveA ++ ['\n'] ++ "\x7b\"id\":".toList).length ∧
    newStore.readUpdates exampleJSON 100 (textLiveA ++ ['\n'] ++ "\x7b\"id\":".toList) =
      some (.returned
        { ims := (NewInMemory.Save (ctxOf 1) "a" "x").ims, filename := "log", seek := 54 } [1]) ∧
    (newStore.readUpdates exampleJSON 100 (textLiveA ++ ['\n'] ++ "\x7b\"id\":".toList)).map
      (fun o => (o.ifs.Get (ctxOf 1) "a", o.ifs.seek)) = some (.ok "x", 54) ∧
    ((textLiveA ++ ['\n'] ++ "\x7b\"id\":".toList).length : Int) <
      ({ ims := NewInMemory, filename := "log", seek := 500 } : InFile).seek ∧
    ({ ims := NewInMemory, filename := "log", seek := 500 } : InFile).readUpdates exampleJSON 100
        (textLiveA ++ ['\n'] ++ "\x7b\"id\":".toList) =
      some (.returned
        { ims := (NewInMemory.Save (ctxOf 1) "a" "x").ims, filename := "log", seek := 54 } [1]) :=
  ⟨by decide, by decide, by decide,
    ((readUpdates_replays_lines exampleJSON 100 newStore
      (textLiveA ++ ['\n'] ++ "\x7b\"id\":".toList) (by decide) (by decide)).2.1 (by decide)
      { ims := (NewInMemory.Save (ctxOf 1) "a" "x").ims, filename := "log", seek := 54 }
      [1]).mpr ⟨rfl, rfl, rfl⟩,
    rfl, by decide,
    ((readUpdates_replays_lines exampleJSON 100
      ({ ims := NewInMemory, filename := "log", seek := 500 } : InFile)
      (textLiveA ++ ['\n'] ++ "\x7b\"id\":".toList) (by decide) (by decide)).2.2 (by decide)
      { ims := (NewInMemory.Save (ctxOf 1) "a" "x").ims, filename := "log", seek := 54 }
      [1]).mpr ⟨rfl, rfl, rfl⟩⟩

open InMemory

/-! ## The counter, continued -/

/-- C14 fails as stated: with the counter at -1, `AddUser(0)` does not leave the
counter at -1. -/
theorem zero_replaces_negative_counter :
    ¬ ((InMemory.mk NewInMemory.shorts none (-1)).AddUser 1 (ctxOf 0) 0).map
        (fun ims => ims.users) = some (-1) := by
  decide

/-- C14 as amended: `AddUser(0)`, run on its own, leaves a counter that is not
negative as it is and sets a negative counter to 0; it changes nothing else. -/
theorem addUser_zero (fuel : Nat) (ims : InMemory) (ctx : Context) :
    (0 ≤ ims.users → ims.AddUser (fuel + 1) ctx 0 = some ims) ∧
    (ims.users < 0 → ims.AddUser (fuel + 1) ctx 0 =
      some { shorts := ims.shorts, deleted := ims.deleted, users := 0 }) := by
  constructor
  · intro h
    have hc : ¬ ((0 : Int) > ims.users ∨ ((0 : Int) < ims.users ∧ (0 : Int) < 0)) := by omega
    simp only [AddUser, addUserLoop, if_neg hc]
  · intro h
    have hc : (0 : Int) > ims.users ∨ ((0 : Int) < ims.users ∧ (0 : Int) < 0) := Or.inl h
    simp only [AddUser, addUserLoop, if_pos hc, CompareAndSwapInt64, if_true]

/-- The witness of C14 as amended: the counters 5 and -1. -/
theorem addUser_zero_witness :
    (0 : Int) ≤ (InMemory.mk NewInMemory.shorts none 5).users ∧
    (InMemory.mk NewInMemory.shorts none 5).AddUser 1 (ctxOf 0) 0 =
      some (InMemory.mk NewInMemory.shorts none 5) ∧
    (InMemory.mk NewInMemory.shorts none (-1)).users < 0 ∧
    (InMemory.mk NewInMemory.shorts none (-1)).AddUser 1 (ctxOf 0) 0 =
      some (InMemory.mk NewInMemory.shorts none 0) :=
  ⟨by decide,
    (addUser_zero 0 (InMemory.mk NewInMemory.shorts none 5) (ctxOf 0)).1 (by decide),
    by decide,
    (addUser_zero 0 (InMemory.mk NewInMemory.shorts none (-1)) (ctxOf 0)).2 (by decide)⟩

/-- C18, evaluated on the code: on a new store `AddUser(-1)` and then
`AddUser(-2)` leave the counter at -2, and the following `NewUser` returns -1,
the identity registered first. -/
theorem newUser_returns_registered :
    ((NewInMemory.AddUser 1 (ctxOf 0) (-1)).bind
      (fun ims => ims.AddUser 1 (ctxOf 0) (-2))).map (fun ims => ims.users) = some (-2) ∧
    ((NewInMemory.AddUser 1 (ctxOf 0) (-1)).bind
      (fun ims => ims.AddUser 1 (ctxOf 0) (-2))).map (fun ims => (ims.NewUser (ctxOf 0)).2) =
        some (.ok (-1)) := by
  constructor <;> rfl

/-! ## The tombstone map of a new store -/

/-- C15, evaluated on the code: on a new store where user 1 owns `a`, the call
`AsyncDeleteURLs` of user 1 with `b`, `a`, `a` does not return: it panics after
it has removed `a` from both mappings, and `a` is not tombstoned. -/
theorem asyncDelete_owned_id_does_not_return :
    ((NewInMemory.Save (ctxOf 1) "a" "x").ims.AsyncDeleteURLs (ctxOf 1) ["b", "a", "a"]).val?
      = none ∧
    ((NewInMemory.Save (ctxOf 1) "a" "x").ims.AsyncDeleteURLs
      (ctxOf 1) ["b", "a", "a"]).ims.mapaccess 1 "a" = none ∧
    ((NewInMemory.Save (ctxOf 1) "a" "x").ims.AsyncDeleteURLs
      (ctxOf 1) ["b", "a", "a"]).ims.mapaccess DefaultUser "a" = none ∧
    ((NewInMemory.Save (ctxOf 1) "a" "x").ims.AsyncDeleteURLs
      (ctxOf 1) ["b", "a", "a"]).ims.tombstoned "a" = false := by
  refine ⟨rfl, by decide, by decide, by decide⟩

/-- C17, evaluated on the code: `NewInMemory` leaves the tombstone map nil, no
`Save` changes that, and `AsyncDeleteURLs` on an id the caller owns panics. -/
theorem new_store_tombstone_map_is_nil :
    NewInMemory.deleted = none ∧
    (NewInMemory.Save (ctxOf 1) "a" "x").ims.deleted = none ∧
    ∃ ims' spawned,
      (NewInMemory.Save (ctxOf 1) "a" "x").ims.AsyncDeleteURLs (ctxOf 1) ["a"] =
        .panicked ims' spawned :=
  ⟨rfl, rfl, _, _, rfl⟩

/-! ## Replay of a log -/

/-- C11, evaluated on the code: user 1 saves `a` on a new persistent store and
the record reaches the log; the delete of `a` by user 1 then panics in the
in-memory store and appends nothing.  The store it leaves answers `NotFound`
for `a`, and a new store that replays the log answers with the URL. -/
theorem restart_after_delete_differs :
    savedStore.2 = textLiveA ++ ['\n'] ∧
    savedStore.1.Get (ctxOf 1) "a" = .ok "x" ∧
    (∃ ifs' spawned,
      savedStore.1.AsyncDeleteURLs exampleJSON savedStore.2 (ctxOf 1) ["a"] =
        (.panicked ifs' spawned, savedStore.2) ∧
      ifs'.Get (ctxOf 1) "a" = .error .ErrNotFound) ∧
    (NewInFile exampleJSON 100 "log" savedStore.2).map (fun o => o.ifs.Get (ctxOf 1) "a") =
      some (.ok "x") :=
  ⟨by decide, rfl, ⟨_, _, rfl, rfl⟩, rfl⟩

/-- C12, evaluated on the code: the log holds the line of `a` and the first 20
bytes of the line of `b`.  `readUpdates` does not replay `b` and moves the
tracked offset to the end of the file, so after the other bytes of the line and
its newline are appended the next `readUpdates` reads only those and does not
replay `b`; a new store that reads the completed file replays it. -/
theorem partial_line_is_lost :
    (newStore.readUpdates exampleJSON 200 (textLiveA ++ ['\n'] ++ textLiveB.take 20)).map
      (fun o => (o.ifs.Get (ctxOf 1) "a", o.ifs.Get (ctxOf 1) "b", o.ifs.seek)) =
        some (.ok "x", .error .ErrNotFound, 68) ∧
    ((newStore.readUpdates exampleJSON 200 (textLiveA ++ ['\n'] ++ textLiveB.take 20)).bind
      (fun o => o.ifs.readUpdates exampleJSON 200
        (textLiveA ++ ['\n'] ++ textLiveB.take 20 ++ (textLiveB.drop 20 ++ ['\n'])))).map
      (fun o => (o.ifs.Get (ctxOf 1) "b", o.ifs.seek)) = some (.error .ErrNotFound, 96) ∧
    textLiveB.take 20 ++ textLiveB.drop 20 = textLiveB ∧
    (newStore.readUpdates exampleJSON 200
      (textLiveA ++ ['\n'] ++ textLiveB.take 20 ++ (textLiveB.drop 20 ++ ['\n']))).map
      (fun o => o.ifs.Get (ctxOf 1) "b") = some (.ok "y") :=
  ⟨rfl, rfl, by decide, rfl⟩

/-- C20, evaluated on the code: the line of `b` has no `deleted` member.  Alone
in the log it is replayed as a `Save`; after the tombstone line of `a` the
variable `s` still holds `Deleted = true`, the line is replayed as a delete,
and `b` is never saved. -/
theorem bare_line_depends_on_previous :
    (exampleJSON.Unmarshal (textBareB ++ ['\n'])).Deleted = none ∧
    decodedRecords exampleJSON [textBareB ++ ['\n']]
        { Sid := "", Furl := "", User := 0, Deleted := false } =
      [{ Sid := "b", Furl := "y", User := 1, Deleted := false }] ∧
    decodedRecords exampleJSON [textTombA ++ ['\n'], textBareB ++ ['\n']]
        { Sid := "", Furl := "", User := 0, Deleted := false } =
      [{ Sid := "a", Furl := "", User := 1, Deleted := true },
       { Sid := "b", Furl := "y", User := 1, Deleted := true }] ∧
    (NewInFile exampleJSON 100 "log" (textBareB ++ ['\n'])).map
      (fun o => o.ifs.Get (ctxOf 1) "b") = some (.ok "y") ∧
    (NewInFile exampleJSON 100 "log" (textTombA ++ ['\n'] ++ textBareB ++ ['\n'])).map
      (fun o => o.ifs.Get (ctxOf 1) "b") = some (.error .ErrNotFound) :=
  ⟨by decide, by decide, by decide, rfl, rfl⟩

open InMemory

/-! ## Replaying a log twice -/

theorem InMemory.AsyncDeleteURLs_single_absent {ims : InMemory} {user : User} {sid : ShortID}
    (h : ims.mapaccess user sid = none) :
    ims.AsyncDeleteURLs (ctxOf user) [sid] = .returned ims [] [] := by
  have hctx : GetUser (ctxOf user) = .ok user := rfl
  cases hm : ims.shorts.lookup user with
  | none => exact AsyncDeleteURLs_no_mapping hctx hm [sid]
  | some m =>
    rw [AsyncDeleteURLs_loop hctx hm, asyncDeleteLoop_cons_skip _ _ _ _ _ h]
    rfl

theorem InMemory.lookup_of_mapaccess {ims : InMemory} {user : User} {sid : ShortID}
    {furl : FullURL} (h : ims.mapaccess user sid = some furl) :
    ∃ m, ims.shorts.lookup user = some m := by
  unfold mapaccess at h
  cases hm : ims.shorts.lookup user with
  | none => rw [hm] at h; cases h
  | some m => exact ⟨m, rfl⟩

theorem InMemory.AsyncDeleteURLs_single_nil {ims : InMemory} {user : User} {sid : ShortID}
    {furl : FullURL} (h : ims.mapaccess user sid = some furl) (hd : ims.deleted = none) :
    ims.AsyncDeleteURLs (ctxOf user) [sid] =
      .panicked ((ims.mapdelete user sid).mapdelete DefaultUser sid) [] := by
  have hctx : GetUser (ctxOf user) = .ok user := rfl
  obtain ⟨m, hm⟩ := lookup_of_mapaccess h
  rw [AsyncDeleteURLs_loop hctx hm, asyncDeleteLoop_cons_nil _ _ _ _ _ h hd]

theorem InMemory.AsyncDeleteURLs_single_delete {ims : InMemory} {user : User} {sid : ShortID}
    {furl : FullURL} {deleted : AList (fun _ : ShortID => Unit)}
    (h : ims.mapaccess user sid = some furl) (hd : ims.deleted = some deleted) :
    ims.AsyncDeleteURLs (ctxOf user) [sid] =
      .returned { (ims.mapdelete user sid).mapdelete DefaultUser sid with
                  deleted := some (AList.insert sid () deleted) } [sid] [] := by
  have hctx : GetUser (ctxOf user) = .ok user := rfl
  obtain ⟨m, hm⟩ := lookup_of_mapaccess h
  rw [AsyncDeleteURLs_loop hctx hm, asyncDeleteLoop_cons_delete _ _ _ _ _ h hd]
  rfl

/-- A record the store has taken in is replayed with no effect. -/
theorem InFile.replay_of_absorbed {ims : InMemory} {s : shortedURL} (h : Absorbed ims s) :
    InFile.replay ims s = .returned ims () [] := by
  unfold Absorbed at h
  unfold InFile.replay
  cases hdel : s.Deleted with
  | true =>
    rw [hdel] at h
    simp only [if_true] at h ⊢
    rw [AsyncDeleteURLs_single_absent h]
  | false =>
    rw [hdel] at h
    simp only [Bool.false_eq_true, if_false] at h ⊢
    have hctx : GetUser (ctxOf s.User) = .ok s.User := rfl
    rw [Save_conflict hctx h]

/-- After the replay of a record returned, the store has taken the record in. -/
theorem InFile.absorbed_of_replay {ims ims' : InMemory} {s : shortedURL} {spawned : List User}
    (h : InFile.replay ims s = .returned ims' () spawned) : Absorbed ims' s := by
  unfold Absorbed
  unfold InFile.replay at h
  cases hdel : s.Deleted with
  | true =>
    rw [hdel] at h
    simp only [if_true] at h ⊢
    cases hacc : ims.mapaccess s.User s.Sid with
    | none =>
      rw [AsyncDeleteURLs_single_absent hacc] at h
      cases h
      exact hacc
    | some furl =>
      cases hd : ims.deleted with
      | none =>
        rw [AsyncDeleteURLs_single_nil hacc hd] at h
        cases h
      | some deleted =>
        rw [AsyncDeleteURLs_single_delete hacc hd] at h
        cases h
        show ((ims.mapdelete s.User s.Sid).mapdelete DefaultUser s.Sid).mapaccess s.User s.Sid = none
        rw [mapaccess_twice_deleted]
        simp
  | false =>
    rw [hdel] at h
    simp only [Bool.false_eq_true, if_false] at h ⊢
    have hctx : GetUser (ctxOf s.User) = .ok s.User := rfl
    cases ht : ims.tombstoned s.Sid with
    | true =>
      rw [Save_conflict hctx (Or.inl ht)] at h
      cases h
      exact Or.inl ht
    | false =>
      cases hg : ims.mapaccess DefaultUser s.Sid with
      | some x =>
        have hs : (ims.mapaccess DefaultUser s.Sid).isSome = true := by rw [hg]; rfl
        rw [Save_conflict hctx (Or.inr hs)] at h
        cases h
        exact Or.inr hs
      | none =>
        cases hdef : (ims.shorts.lookup DefaultUser).isSome with
        | false =>
          simp only [InMemory.Save, hctx, ht, hg, mapassign_eq_none hdef] at h
          cases h
        | true =>
          obtain ⟨ims2, sp, hsave, _, _, hm, _⟩ := Save_fresh s.Furl hctx hdef ht hg
          rw [hsave] at h
          cases h
          right
          rw [hm]
          simp

open InMemory

theorem InFile.replay_returned_cases {ims ims' : InMemory} {s : shortedURL}
    {spawned : List User} (h : InFile.replay ims s = .returned ims' () spawned) :
    (s.Deleted = true ∧
      ∃ result, ims.AsyncDeleteURLs (ctxOf s.User) [s.Sid] = .returned ims' result spawned) ∨
    (s.Deleted = false ∧
      ∃ err, InMemory.Save ims (ctxOf s.User) s.Sid s.Furl = .returned ims' err spawned) := by
  unfold InFile.replay at h
  cases hdel : s.Deleted with
  | true =>
    left
    rw [hdel] at h
    simp only [if_true] at h
    cases hc : ims.AsyncDeleteURLs (ctxOf s.User) [s.Sid] with
    | returned ims0 result sp =>
      rw [hc] at h
      cases h
      exact ⟨rfl, result, rfl⟩
    | panicked ims0 sp => rw [hc] at h; cases h
  | false =>
    right
    rw [hdel] at h
    simp only [Bool.false_eq_true, if_false] at h
    cases hc : InMemory.Save ims (ctxOf s.User) s.Sid s.Furl with
    | returned ims0 err sp =>
      rw [hc] at h
      cases h
      exact ⟨rfl, err, rfl⟩
    | panicked ims0 sp => rw [hc] at h; cases h

/-- An id that is tombstoned or in the global mapping stays so when the replay
of a record returns. -/
theorem InFile.replay_keeps_covered {ims ims' : InMemory} {s : shortedURL}
    {spawned : List User} (h : InFile.replay ims s = .returned ims' () spawned) (k : ShortID)
    (hk : ims.tombstoned k = true ∨ (ims.mapaccess DefaultUser k).isSome = true) :
    ims'.tombstoned k = true ∨ (ims'.mapaccess DefaultUser k).isSome = true := by
  rcases InFile.replay_returned_cases h with ⟨_, result, hc⟩ | ⟨_, err, hc⟩
  · cases hacc : ims.mapaccess s.User s.Sid with
    | none =>
      rw [AsyncDeleteURLs_single_absent hacc] at hc
      cases hc
      exact hk
    | some furl =>
      cases hd : ims.deleted with
      | none =>
        rw [AsyncDeleteURLs_single_nil hacc hd] at hc
        cases hc
      | some deleted =>
        rw [AsyncDeleteURLs_single_delete hacc hd] at hc
        cases hc
        by_cases hks : k = s.Sid
        · left
          subst hks
          simp [tombstoned]
        · rcases hk with hk | hk
          · left
            simp only [tombstoned, hd] at hk
            simp only [tombstoned]
            rw [AList.lookup_insert_ne hks]
            exact hk
          · right
            show (((ims.mapdelete s.User s.Sid).mapdelete DefaultUser s.Sid).mapaccess
              DefaultUser k).isSome = true
            rw [mapaccess_twice_deleted]
            simpa [hks] using hk
  · obtain ⟨hd, _, _, hm⟩ := Save_footprint ims (ctxOf s.User) s.Sid s.Furl
    rw [hc] at hd hm
    change ims'.deleted = _ at hd
    change ∀ o k, ims'.mapaccess o k ≠ _ → _ at hm
    rcases hk with hk | hk
    · left; rw [tombstoned_congr hd]; exact hk
    · right
      by_cases hne : ims'.mapaccess DefaultUser k = ims.mapaccess DefaultUser k
      · rw [hne]; exact hk
      · have := (hm DefaultUser k hne).2.2
        rw [this] at hk
        cases hk

/-- An id that is not in the mapping of a user stays out of it when the replay
of a record that is not a live record of the id returns. -/
theorem InFile.replay_keeps_absent {ims ims' : InMemory} {s : shortedURL}
    {spawned : List User} (h : InFile.replay ims s = .returned ims' () spawned)
    (user : User) (k : ShortID) (hk : ims.mapaccess user k = none)
    (hs : s.Deleted = false → s.Sid ≠ k) : ims'.mapaccess user k = none := by
  rcases InFile.replay_returned_cases h with ⟨_, result, hc⟩ | ⟨hlive, err, hc⟩
  · have hm := (AsyncDeleteURLs_footprint ims (ctxOf s.User) [s.Sid]).2.2.2
    rw [hc] at hm
    change ∀ o k furl, ims'.mapaccess o k = some furl → _ at hm
    cases hx : ims'.mapaccess user k with
    | none => rfl
    | some furl =>
      have := hm user k furl hx
      rw [hk] at this
      cases this
  · have hm := (Save_footprint ims (ctxOf s.User) s.Sid s.Furl).2.2.2
    rw [hc] at hm
    change ∀ o k, ims'.mapaccess o k ≠ _ → _ at hm
    by_cases hne : ims'.mapaccess user k = ims.mapaccess user k
    · rw [hne]; exact hk
    · exact absurd (hm user k hne).1.symm (hs hlive)

theorem replayRecords_cons_returned {ims ims' : InMemory} {s : shortedURL}
    {sp : List User} (h : InFile.replay ims s = .returned ims' () sp)
    (rest : List shortedURL) (spawned : List User) :
    replayRecords (s :: rest) ims spawned = replayRecords rest ims' (spawned ++ sp) := by
  rw [replayRecords, h]

/-- When the replay of a list of records returns, its first record was replayed
and returned, and the other records were replayed from the store that left. -/
theorem replayRecords_cons_inv {s : shortedURL} {rest : List shortedURL}
    {ims final : InMemory} {spawned spawned' : List User}
    (h : replayRecords (s :: rest) ims spawned = .returned final () spawned') :
    ∃ ims' sp, InFile.replay ims s = .returned ims' () sp ∧
      replayRecords rest ims' (spawned ++ sp) = .returned final () spawned' := by
  rw [replayRecords] at h
  cases hr : InFile.replay ims s with
  | returned ims' v sp =>
    rw [hr] at h
    exact ⟨ims', sp, rfl, h⟩
  | panicked ims' sp =>
    rw [hr] at h
    cases h

theorem replayRecords_keeps_covered (k : ShortID) :
    ∀ (records : List shortedURL) (ims final : InMemory) (spawned spawned' : List User),
      replayRecords records ims spawned = .returned final () spawned' →
      (ims.tombstoned k = true ∨ (ims.mapaccess DefaultUser k).isSome = true) →
      (final.tombstoned k = true ∨ (final.mapaccess DefaultUser k).isSome = true)
  | [], ims, final, spawned, spawned', h, hk => by
    rw [replayRecords] at h
    cases h
    exact hk
  | s :: rest, ims, final, spawned, spawned', h, hk => by
    obtain ⟨ims', sp, hr, hrest⟩ := replayRecords_cons_inv h
    exact replayRecords_keeps_covered k rest ims' final _ _ hrest
      (InFile.replay_keeps_covered hr k hk)

theorem replayRecords_keeps_absent (user : User) (k : ShortID) :
    ∀ (records : List shortedURL) (ims final : InMemory) (spawned spawned' : List User),
      replayRecords records ims spawned = .returned final () spawned' →
      ims.mapaccess user k = none →
      (∀ s ∈ records, s.Deleted = false → s.Sid ≠ k) →
      final.mapaccess user k = none
  | [], ims, final, spawned, spawned', h, hk, _ => by
    rw [replayRecords] at h
    cases h
    exact hk
  | s :: rest, ims, final, spawned, spawned', h, hk, hs => by
    obtain ⟨ims', sp, hr, hrest⟩ := replayRecords_cons_inv h
    exact replayRecords_keeps_absent user k rest ims' final _ _ hrest
      (InFile.replay_keeps_absent hr user k hk (hs s (List.mem_cons_self _ _)))
      (fun s' hs' => hs s' (List.mem_cons_of_mem _ hs'))

/-- When the replay of records with the tombstones last returns, the store it
leaves has taken every record in. -/
theorem replayRecords_absorbs :
    ∀ (records : List shortedURL) (ims final : InMemory) (spawned spawned' : List User),
      replayRecords records ims spawned = .returned final () spawned' →
      TombstonesLast records → ∀ s ∈ records, Absorbed final s
  | [], _, _, _, _, _, _ => fun s hs => absurd hs (List.not_mem_nil s)
  | r :: rest, ims, final, spawned, spawned', h, hlast => by
    obtain ⟨ims', sp, hr, hrest⟩ := replayRecords_cons_inv h
    have hpair := List.pairwise_cons.mp hlast
    intro s hs
    rcases List.mem_cons.mp hs with rfl | hs
    · have h0 := InFile.absorbed_of_replay hr
      unfold Absorbed at h0 ⊢
      cases hdel : s.Deleted with
      | true =>
        rw [hdel] at h0
        simp only [if_true] at h0 ⊢
        exact replayRecords_keeps_absent s.User s.Sid rest ims' final _ _ hrest h0
          (fun s' hs' hlive heq => hpair.1 s' hs' hdel hlive heq.symm)
      | false =>
        rw [hdel] at h0
        simp only [Bool.false_eq_true, if_false] at h0 ⊢
        exact replayRecords_keeps_covered s.Sid rest ims' final _ _ hrest h0
    · exact replayRecords_absorbs rest ims' final _ _ hrest hpair.2 s hs

/-- The replay of records the store has taken in returns the same store. -/
theorem replayRecords_of_absorbed (ims : InMemory) :
    ∀ (records : List shortedURL) (spawned : List User),
      (∀ s ∈ records, Absorbed ims s) →
      replayRecords records ims spawned = .returned ims () spawned
  | [], spawned, _ => by rw [replayRecords]
  | s :: rest, spawned, h => by
    rw [replayRecords_cons_returned
      (InFile.replay_of_absorbed (h s (List.mem_cons_self _ _))) rest spawned,
      List.append_nil]
    exact replayRecords_of_absorbed ims rest spawned
      (fun s' hs' => h s' (List.mem_cons_of_mem _ hs'))

theorem replayLines_eq_replayRecords (json : JSON) :
    ∀ (lines : List (List Byte)) (ims : InMemory) (s : shortedURL) (spawned : List User),
      replayLines json lines ims s spawned =
        replayRecords (decodedRecords json lines s) ims spawned
  | [], ims, s, spawned => by rw [replayLines, decodedRecords, replayRecords]
  | line :: rest, ims, s, spawned => by
    rw [replayLines_cons, decodedRecords]
    cases he : (json.Unmarshal line).err with
    | true =>
      simp only [if_true]
      exact replayLines_eq_replayRecords json rest ims _ spawned
    | false =>
      simp only [Bool.false_eq_true, if_false]
      rw [replayRecords]
      cases hr : InFile.replay ims ((json.Unmarshal line).assign s) with
      | returned ims' v sp => exact replayLines_eq_replayRecords json rest ims' _ _
      | panicked ims' sp => rfl

open InMemory

/-- C19 fails as stated: the log holds the tombstone record of `a` before its
live record.  The first replay into a new store returns with `a` saved for
user 1; the second replay from offset 0 into that store deletes `a`. -/
theorem replay_twice_changes_store :
    ∃ S spawned,
      NewInFile exampleJSON 200 "log" (textTombA ++ ['\n'] ++ textLiveA ++ ['\n']) =
        some (.returned S spawned) ∧
      S.ims.mapaccess 1 "a" = some "x" ∧
      (({ S with seek := 0 } : InFile).readUpdates exampleJSON 200
        (textTombA ++ ['\n'] ++ textLiveA ++ ['\n'])).map
          (fun o => o.ifs.ims.mapaccess 1 "a") = some none :=
  ⟨{ ims := (NewInMemory.Save (ctxOf 1) "a" "x").ims, filename := "log", seek := 94 }, [1],
    rfl, by decide, by decide⟩

/-- C19 as amended: for a log in which no live record of an id comes after a
tombstone record of the same id, and a store `S` that `NewInFile` returns
after it replayed the log from offset 0 into a new in-memory store, a second
`readUpdates` of the same log from offset 0 (the tracked offset is 0 or is
beyond the file) returns `S` itself: the mappings, the tombstones and the
counter are unchanged. -/
theorem replay_twice_unchanged (json : JSON) (fuel : Nat) (filename : String)
    (file : List Byte) (hfuel : file.length < fuel) (S : InFile) (spawned : List User)
    (hfirst : NewInFile json fuel filename file = some (.returned S spawned))
    (hlast : TombstonesLast (decodedRecords json (completeLines file)
      { Sid := "", Furl := "", User := 0, Deleted := false }))
    (seek : Int) (hseek : seek = 0 ∨ (file.length : Int) < seek) :
    ({ S with seek := seek } : InFile).readUpdates json fuel file = some (.returned S []) := by
  have h1 := InFile.readUpdates_of_replayLines json fuel
    { ims := NewInMemory, filename := filename, seek := 0 } file hfuel 0 (le_refl 0)
    (by split <;> rfl)
  unfold NewInFile at hfirst
  rw [h1] at hfirst
  simp only [Int.toNat_zero, List.drop_zero] at hfirst
  rw [replayLines_eq_replayRecords] at hfirst
  cases hrep : replayRecords (decodedRecords json (completeLines file)
      { Sid := "", Furl := "", User := 0, Deleted := false }) NewInMemory [] with
  | panicked ims sp =>
    rw [hrep] at hfirst
    simp at hfirst
  | returned ims v sp =>
    rw [hrep] at hfirst
    simp only [Option.some.injEq, ReadOutcome.returned.injEq] at hfirst
    obtain ⟨hS, _⟩ := hfirst
    subst hS
    have habs := replayRecords_absorbs _ _ _ _ _ hrep hlast
    have h2 := InFile.readUpdates_of_replayLines json fuel
      ({ ims := ims, filename := filename, seek := seek } : InFile) file hfuel 0 (le_refl 0)
      (by
        rcases hseek with h0 | hlt
        · subst h0; split <;> rfl
        · exact if_pos hlt)
    rw [h2]
    simp only [Int.toNat_zero, List.drop_zero]
    rw [replayLines_eq_replayRecords, replayRecords_of_absorbed ims _ [] habs]

/-- The witness of C19 as amended: a log with the live record of `b` and then
a tombstone record of `a`, which user 1 does not own. -/
theorem replay_twice_unchanged_witness :
    (textLiveB ++ ['\n'] ++ textTombA ++ ['\n']).length < 200 ∧
    NewInFile exampleJSON 200 "log" (textLiveB ++ ['\n'] ++ textTombA ++ ['\n']) =
      some (.returned
        { ims := (NewInMemory.Save (ctxOf 1) "b" "y").ims, filename := "log", seek := 94 } [1]) ∧
    TombstonesLast (decodedRecords exampleJSON
      (completeLines (textLiveB ++ ['\n'] ++ textTombA ++ ['\n']))
      { Sid := "", Furl := "", User := 0, Deleted := false }) ∧
    ({ ims := (NewInMemory.Save (ctxOf 1) "b" "y").ims, filename := "log",
       seek := 0 } : InFile).readUpdates exampleJSON 200
        (textLiveB ++ ['\n'] ++ textTombA ++ ['\n']) =
      some (.returned
        { ims := (NewInMemory.Save (ctxOf 1) "b" "y").ims, filename := "log", seek := 94 } []) :=
  ⟨by decide, rfl, by unfold TombstonesLast; decide,
    replay_twice_unchanged exampleJSON 200 "log" (textLiveB ++ ['\n'] ++ textTombA ++ ['\n'])
      (by decide)
      { ims := (NewInMemory.Save (ctxOf 1) "b" "y").ims, filename := "log", seek := 94 } [1]
      rfl (by unfold TombstonesLast; decide) 0 (Or.inl rfl)⟩

end Storage
